import Mathlib

/-!
Verification of the sync engine in `syncer.go` (the revision with the
`shaCache` checksum cache, the `remotePaths` set and `pruneLocalFiles`).

The remote Drive store is modelled as a snapshot tree of `DriveFile`
entries, the local filesystem as a finite association list from absolute
paths to entries, and the network/OS failure modes of a single download
(`Files.Get(...).Download()`, `os.Create`, `io.Copy`) as an oracle keyed
by the remote file id.  `filepath.Join(dir, name)` is modelled as
`dir ++ "/" ++ name`, which agrees with Go for ordinary names (nonempty,
no separator, not "." or ".."); theorems that depend on this carry an
explicit `namesOk` hypothesis.
-/

/-- `const downloadDir = "/tmp/agents-state"` (syncer.go). -/
def downloadDir : String := "/tmp/agents-state"

/-- `const syncInterval = 30 * time.Second` (syncer.go), in seconds. -/
def syncInterval : Nat := 30

/-- The folder MIME type checked by `syncFolderRecursively`. -/
def folderMime : String := "application/vnd.google-apps.folder"

/-- The Google Workspace MIME prefix checked with `strings.HasPrefix`. -/
def gappsMime : String := "application/vnd.google-apps."

/-- Model of `filepath.Join(dir, name)` for ordinary names. -/
def joinPath (dir name : String) : String := dir ++ "/" ++ name

/-- The fields of `*drive.File` used by the engine
(`Fields("files(id, name, mimeType, sha256Checksum)")`). -/
structure DriveFile where
  id : String
  name : String
  mimeType : String
  sha256Checksum : String
deriving DecidableEq, Repr

/-- Snapshot of the remote tree at listing time: an entry together with
the children its folder listing would return.  Children are only
meaningful for folder entries. -/
inductive RTree where
  | node (file : DriveFile) (children : List RTree)

/-- A local filesystem entry: a regular file with its byte content, or a
directory. -/
inductive FSEntry where
  | file (content : String)
  | dir
deriving DecidableEq, Repr

/-- The local tree under `downloadDir`, as a finite map from absolute
path to entry. -/
abbrev FS := List (String × FSEntry)

/-- The `shaCache` map from local path to last downloaded checksum. -/
abbrev Cache := List (String × String)

/-- Lookup in an association list (Go map read). -/
def lookupKV {β : Type} (l : List (String × β)) (p : String) : Option β :=
  match l with
  | [] => none
  | (q, v) :: rest => if q = p then some v else lookupKV rest p

/-- Update in an association list (Go map write `l[p] = v`). -/
def setKV {β : Type} (l : List (String × β)) (p : String) (v : β) :
    List (String × β) :=
  (p, v) :: l.filter (fun x => decide (x.1 ≠ p))

/-- Removal from an association list (Go `delete(l, p)`). -/
def eraseKV {β : Type} (l : List (String × β)) (p : String) :
    List (String × β) :=
  l.filter (fun x => decide (x.1 ≠ p))

/-- `q` lies strictly below `p` in the path hierarchy: `q = p ++ "/" ++ s`. -/
def under (p q : String) : Prop := ∃ s : String, q = p ++ "/" ++ s

/-- Executable test for `under`. -/
def underB (p q : String) : Bool := (p ++ "/").data.isPrefixOf q.data

/-- Outcome of one attempted download, keyed by the remote file id:
the `Files.Get(id).Download()` call can fail (`dlError`), `os.Create`
can fail (`createError`), `io.Copy` can fail after the file was created
and truncated (`writeError`, leaving partial bytes), or everything
succeeds and the file holds the streamed content (`ok`). -/
inductive DLOutcome where
  | dlError
  | createError
  | writeError (partialContent : String)
  | ok (content : String)
deriving DecidableEq, Repr

/-- The environment: what happens when the engine downloads a given
remote file id. -/
abbrev Env := String → DLOutcome

/-- Result of `downloadFile`: the updated filesystem and cache, whether
a download (network fetch) was performed, and whether the item failed. -/
structure DLRes where
  fs : FS
  shaCache : Cache
  didDownload : Bool
  failed : Bool
deriving DecidableEq, Repr

/-- `downloadFile(srv, file, dir, shaCache)` (syncer.go):
`localPath := filepath.Join(dir, file.Name)`; if `os.Stat` succeeds and
the cache holds exactly the remote checksum the file is skipped;
otherwise the download runs, and only a fully successful download
updates `shaCache[localPath]`.  `os.Create` fails when a directory sits
at `localPath`.  No branch removes a cache entry. -/
def downloadFile (env : Env) (file : DriveFile) (dir : String)
    (fs : FS) (shaCache : Cache) : DLRes :=
  let localPath := joinPath dir file.name
  let hit : Bool :=
    match lookupKV fs localPath with
    | none => false
    | some _ =>
      match lookupKV shaCache localPath with
      | none => false
      | some sha => decide (sha = file.sha256Checksum)
  if hit then ⟨fs, shaCache, false, false⟩
  else
    match env file.id with
    | .dlError => ⟨fs, shaCache, true, true⟩
    | .createError => ⟨fs, shaCache, true, true⟩
    | .writeError pc =>
      match lookupKV fs localPath with
      | some .dir => ⟨fs, shaCache, true, true⟩
      | _ => ⟨setKV fs localPath (.file pc), shaCache, true, true⟩
    | .ok c =>
      match lookupKV fs localPath with
      | some .dir => ⟨fs, shaCache, true, true⟩
      | _ => ⟨setKV fs localPath (.file c),
              setKV shaCache localPath file.sha256Checksum, true, false⟩

/-- `os.MkdirAll(path, 0755)`: succeeds (idempotently) unless a regular
file occupies the path. -/
def mkdirAll (fs : FS) (p : String) : Option FS :=
  match lookupKV fs p with
  | some (.file _) => none
  | some .dir => some fs
  | none => some (setKV fs p .dir)

/-- The mutable state threaded through one sync cycle: the local tree,
the checksum cache, the `remotePaths` set, and counters for performed
downloads and individually-logged per-item failures. -/
structure SyncState where
  fs : FS
  shaCache : Cache
  remotePaths : List String
  downloads : Nat
  failures : Nat
deriving DecidableEq, Repr

mutual

/-- One iteration of the `for _, file := range page.Files` loop in
`syncFolderRecursively`: folders are marked then created then recursed
into, Google Workspace files are skipped entirely, and regular files
are marked then handed to `downloadFile`. -/
def syncEntry (env : Env) (since : Option Nat) : RTree → String →
    SyncState → SyncState
  | .node f cs, localPath, st =>
    let newLocalPath := joinPath localPath f.name
    if f.mimeType = folderMime then
      let st1 : SyncState := { st with remotePaths := newLocalPath :: st.remotePaths }
      match mkdirAll st1.fs newLocalPath with
      | none => { st1 with failures := st1.failures + 1 }
      | some fs1 =>
        syncFolderRecursively env since cs newLocalPath { st1 with fs := fs1 }
    else if gappsMime.data.isPrefixOf f.mimeType.data then
      st
    else
      let st1 : SyncState := { st with remotePaths := newLocalPath :: st.remotePaths }
      let r := downloadFile env f localPath st1.fs st1.shaCache
      { st1 with
        fs := r.fs
        shaCache := r.shaCache
        downloads := st1.downloads + (if r.didDownload then 1 else 0)
        failures := st1.failures + (if r.failed then 1 else 0) }

/-- `syncFolderRecursively(ctx, srv, folderID, localPath, since,
remotePaths, shaCache)`: processes the listed children of one folder in
order.  The `since` parameter is threaded through exactly as in the
source, where the listing query is
`"'<folderID>' in parents and trashed = false"` and never mentions it. -/
def syncFolderRecursively (env : Env) (since : Option Nat) :
    List RTree → String → SyncState → SyncState
  | [], _, st => st
  | t :: ts, localPath, st =>
    syncFolderRecursively env since ts localPath (syncEntry env since t localPath st)

end

/-- `filepath.Walk(localRoot, ...)`: the set of existing paths at or
below the root. -/
def walkPaths (localRoot : String) (fs : FS) : List String :=
  (fs.map Prod.fst).filter (fun p => decide (p = localRoot) || underB localRoot p)

/-- The paths collected for deletion by `pruneLocalFiles`: walked paths
absent from `remotePaths`. -/
def stalePaths (localRoot : String) (fs : FS) (remotePaths : List String) :
    List String :=
  (walkPaths localRoot fs).filter (fun p => decide (p ∉ remotePaths))

/-- Insert into a list kept sorted by weakly decreasing string length. -/
def insertDesc (p : String) : List String → List String
  | [] => [p]
  | q :: qs => if p.length ≤ q.length then q :: insertDesc p qs else p :: q :: qs

/-- Model of `sort.Slice(pathsToDelete, func(i, j) { return
len(pathsToDelete[i]) > len(pathsToDelete[j]) })`: some order in which
string lengths weakly decrease. -/
def sortDescLen : List String → List String
  | [] => []
  | p :: ps => insertDesc p (sortDescLen ps)

/-- `os.Remove(path)`: fails when the path is missing or is a non-empty
directory; otherwise removes exactly that path. -/
def removePath (fs : FS) (p : String) : Option FS :=
  match lookupKV fs p with
  | none => none
  | some (.file _) => some (eraseKV fs p)
  | some .dir =>
    if fs.any (fun x => underB p x.1) then none else some (eraseKV fs p)

/-- Result of `pruneLocalFiles`: updated tree and cache, plus the count
of logged deletion failures. -/
structure PruneRes where
  fs : FS
  shaCache : Cache
  failures : Nat
deriving DecidableEq, Repr

/-- One iteration of the deletion loop in `pruneLocalFiles`: on a
successful `os.Remove` the path's checksum-cache entry is deleted; a
failure is logged and does not stop the loop. -/
def pruneStep (acc : PruneRes) (p : String) : PruneRes :=
  match removePath acc.fs p with
  | none => { acc with failures := acc.failures + 1 }
  | some fs1 => { fs := fs1, shaCache := eraseKV acc.shaCache p, failures := acc.failures }

/-- `pruneLocalFiles(localRoot, remotePaths, shaCache)`: walk, collect
stale paths, sort by descending length, delete in that order. -/
def pruneLocalFiles (localRoot : String) (fs : FS)
    (remotePaths : List String) (shaCache : Cache) : PruneRes :=
  (sortDescLen (stalePaths localRoot fs remotePaths)).foldl pruneStep
    ⟨fs, shaCache, 0⟩

/-- The value returned by one `performSync` call, together with the
state it leaves behind.  `watermark` is the `currentTime` captured at
entry, `ok` is whether the cycle returned without error, and
`remotePaths` is the set built by the mirror phase. -/
structure CycleResult where
  watermark : Nat
  ok : Bool
  fs : FS
  shaCache : Cache
  remotePaths : List String
  downloads : Nat
  failures : Nat
deriving DecidableEq, Repr

/-- `performSync(ctx, driveService, folderName, since, shaCache)`:
capture `currentTime`, resolve the folder (a `none` listing models
`getFolderID` failing, either "not found" or a query error — the cycle
aborts before touching any state), seed `remotePaths` with
`downloadDir`, mirror recursively, then prune. -/
def performSync (env : Env) (rootListing : Option (List RTree))
    (since : Option Nat) (now : Nat) (fs : FS) (shaCache : Cache) :
    CycleResult :=
  match rootListing with
  | none => ⟨now, false, fs, shaCache, [], 0, 0⟩
  | some children =>
    let st1 := syncFolderRecursively env since children downloadDir
      ⟨fs, shaCache, [downloadDir], 0, 0⟩
    let pr := pruneLocalFiles downloadDir st1.fs st1.remotePaths st1.shaCache
    ⟨now, true, pr.fs, pr.shaCache, st1.remotePaths, st1.downloads,
      st1.failures + pr.failures⟩

/-- The watermark update in `startSyncLoop`: `lastSyncTime` is replaced
by the returned time only when the cycle succeeded. -/
def loopStep (res : CycleResult) (lastSyncTime : Option Nat) : Option Nat :=
  if res.ok then some res.watermark else lastSyncTime

/-- The initialization of `lastSyncTime` in `startSyncLoop`:
`time.Now().Add(-secondsAgo * time.Second)` when `secondsAgo > 0`,
otherwise the zero time (no filter), modelled as `none`. -/
def initialLastSyncTime (secondsAgo : Nat) (now : Nat) : Option Nat :=
  if secondsAgo > 0 then some (now - secondsAgo) else none

mutual

/-- The local paths a single remote entry contributes: a folder
contributes its path and its subtree's paths, a Workspace document
contributes nothing, a regular file contributes its path. -/
def entryPaths : RTree → String → List String
  | .node f cs, localPath =>
    let np := joinPath localPath f.name
    if f.mimeType = folderMime then np :: treePaths cs np
    else if gappsMime.data.isPrefixOf f.mimeType.data then []
    else [np]

/-- The local paths of all non-workspace files and folders reachable
from a listing, mirrored below `localPath`. -/
def treePaths : List RTree → String → List String
  | [], _ => []
  | t :: ts, localPath => entryPaths t localPath ++ treePaths ts localPath

end

mutual

/-- All names in an entry's subtree are ordinary: nonempty and without
a path separator (the regime where `joinPath` coincides with
`filepath.Join`). -/
def entryNamesOk : RTree → Bool
  | .node f cs => !(f.name == "") && !(f.name.data.contains '/') && namesOk cs

/-- `entryNamesOk` over a listing. -/
def namesOk : List RTree → Bool
  | [] => true
  | t :: ts => entryNamesOk t && namesOk ts

end

mutual

/-- The local state is fully up to date for one remote entry: the
folder's directory exists (recursively), or the regular file exists
locally with a matching cache entry, so `downloadFile` will skip it. -/
def readyEntry (fs : FS) (shaCache : Cache) : RTree → String → Bool
  | .node f cs, localPath =>
    let np := joinPath localPath f.name
    if f.mimeType = folderMime then
      decide (lookupKV fs np = some .dir) && readyList fs shaCache cs np
    else if gappsMime.data.isPrefixOf f.mimeType.data then true
    else (lookupKV fs np).isSome &&
      decide (lookupKV shaCache np = some f.sha256Checksum)

/-- `readyEntry` over a listing. -/
def readyList (fs : FS) (shaCache : Cache) : List RTree → String → Bool
  | [], _ => true
  | t :: ts, localPath =>
    readyEntry fs shaCache t localPath && readyList fs shaCache ts localPath

end

/-- The cross-cycle invariant relating the checksum cache to the local
tree: a cached path always holds a regular file. -/
def InvCF (fs : FS) (shaCache : Cache) : Prop :=
  ∀ p s, lookupKV shaCache p = some s → ∃ c, lookupKV fs p = some (.file c)

/-- Well-formedness of the local tree at cycle entry: the download root
exists as a directory and every path lies at or below it. -/
def fsWF (root : String) (fs : FS) : Prop :=
  lookupKV fs root = some .dir ∧
    ∀ p ∈ fs.map Prod.fst, p = root ∨ underB root p = true

/-- The closure property of the `remotePaths` set: every member is the
download root or arises by joining a member with a child name. -/
def pathsClosed (S : List String) : Prop :=
  ∀ q ∈ S, q = downloadDir ∨ ∃ p n, p ∈ S ∧ q = joinPath p n

/-- Ancestor closure of the `remotePaths` set, relative to the download
root: an ancestor of a member that lies at or below the root is itself
a member. -/
def ancClosed (S : List String) : Prop :=
  ∀ q ∈ S, ∀ p, under p q → (p = downloadDir ∨ under downloadDir p) → p ∈ S

-- ## Concrete instances used by witnesses and counterexamples

/-- Witness environment: contents served for the two witness files. -/
def wEnv : Env := fun id => if id = "file1_id" then .ok "content1" else .ok "content2"

/-- Witness remote file in the root folder. -/
def wFile1 : DriveFile := ⟨"file1_id", "file1.txt", "text/plain", "sha_file1"⟩

/-- Witness remote file inside the sub-folder. -/
def wFile2 : DriveFile := ⟨"file2_id", "file2.txt", "text/plain", "sha_file2"⟩

/-- Witness remote sub-folder. -/
def wSub : DriveFile :=
  ⟨"subfolder_id", "subfolder", "application/vnd.google-apps.folder", ""⟩

/-- Witness Google Workspace document (opaque kind). -/
def wDoc : DriveFile :=
  ⟨"doc_id", "notes", "application/vnd.google-apps.document", ""⟩

/-- Witness remote tree: one file and a sub-folder with one file. -/
def wTree : List RTree := [.node wFile1 [], .node wSub [.node wFile2 []]]

/-- Witness initial local tree: just the download root. -/
def wFS0 : FS := [(downloadDir, .dir)]

/-- Environment in which every write fails after the file was created. -/
def cexEnvWF : Env := fun _ => .writeError "partial"

/-- Remote file whose checksum changed, for the write-failure scenario. -/
def cexFileA : DriveFile := ⟨"id_a", "a.txt", "text/plain", "newsha"⟩

/-- Local tree holding the previous version of `a.txt`. -/
def cexFS : FS :=
  [(downloadDir, .dir), (joinPath downloadDir "a.txt", .file "old-bytes")]

/-- Checksum cache holding the previous checksum of `a.txt`. -/
def cexCache : Cache := [(joinPath downloadDir "a.txt", "oldsha")]

/-- Remote listing with two sibling files of the same name but different
checksums (Drive permits duplicate names in one folder). -/
def dupTree : List RTree :=
  [.node ⟨"id1", "a", "text/plain", "h1"⟩ [],
   .node ⟨"id2", "a", "text/plain", "h2"⟩ []]

/-- Environment serving the two duplicate-name files. -/
def dupEnv : Env := fun id => if id = "id1" then .ok "c1" else .ok "c2"

/-- Local tree holding a stale export of a Workspace document. -/
def cexFS9 : FS :=
  [(downloadDir, .dir), (joinPath downloadDir "stale.pdf", .file "x")]

-- ## Association-list lemmas

theorem lookupKV_filter_ne {β : Type} (l : List (String × β)) (p q : String)
    (hq : q ≠ p) :
    lookupKV (l.filter (fun x => decide (x.1 ≠ p))) q = lookupKV l q := by
  induction l with
  | nil => rfl
  | cons a l ih =>
    rcases a with ⟨a1, v⟩
    by_cases ha : a1 = p
    · rw [List.filter_cons_of_neg (by simp [ha])]
      rw [ih]
      have haq : ¬ a1 = q := fun h => hq (h ▸ ha)
      conv_rhs => rw [lookupKV]
      rw [if_neg haq]
    · rw [List.filter_cons_of_pos (by simp [ha])]
      show lookupKV ((a1, v) :: _) q = _
      rw [lookupKV, lookupKV]
      by_cases h1 : a1 = q
      · rw [if_pos h1, if_pos h1]
      · rw [if_neg h1, if_neg h1, ih]

theorem lookupKV_filter_self {β : Type} (l : List (String × β)) (p : String) :
    lookupKV (l.filter (fun x => decide (x.1 ≠ p))) p = none := by
  induction l with
  | nil => rfl
  | cons a l ih =>
    rcases a with ⟨a1, v⟩
    by_cases ha : a1 = p
    · rw [List.filter_cons_of_neg (by simp [ha])]
      exact ih
    · rw [List.filter_cons_of_pos (by simp [ha])]
      show lookupKV ((a1, v) :: _) p = _
      rw [lookupKV, if_neg ha]
      exact ih

theorem lookupKV_setKV {β : Type} (l : List (String × β)) (p q : String) (v : β) :
    lookupKV (setKV l p v) q = if p = q then some v else lookupKV l q := by
  show lookupKV ((p, v) :: _) q = _
  rw [lookupKV]
  by_cases h : p = q
  · rw [if_pos h, if_pos h]
  · rw [if_neg h, if_neg h]
    exact lookupKV_filter_ne l p q (fun hh => h hh.symm)

theorem lookupKV_eraseKV {β : Type} (l : List (String × β)) (p q : String) :
    lookupKV (eraseKV l p) q = if p = q then none else lookupKV l q := by
  by_cases h : p = q
  · subst h
    rw [if_pos rfl]
    exact lookupKV_filter_self l p
  · rw [if_neg h]
    exact lookupKV_filter_ne l p q (fun hh => h hh.symm)

theorem lookupKV_isSome_mem {β : Type} (l : List (String × β)) (p : String) :
    (lookupKV l p).isSome ↔ p ∈ l.map Prod.fst := by
  induction l with
  | nil => simp [lookupKV]
  | cons a l ih =>
    rcases a with ⟨a1, v⟩
    rw [lookupKV]
    by_cases ha : a1 = p
    · subst ha; simp
    · rw [if_neg ha]
      simp only [List.map_cons, List.mem_cons, ih]
      constructor
      · exact fun h => Or.inr h
      · rintro (h | h)
        · exact absurd h.symm ha
        · exact h

-- ## Path lemmas

theorem underB_iff (p q : String) : underB p q = true ↔ under p q := by
  unfold underB under
  rw [List.isPrefixOf_iff_prefix]
  constructor
  · rintro ⟨t, ht⟩
    refine ⟨⟨t⟩, String.ext ?_⟩
    rw [String.data_append]
    exact ht.symm
  · rintro ⟨s, rfl⟩
    exact ⟨s.data, (String.data_append _ _).symm⟩

theorem under_length {p q : String} (h : under p q) : p.length < q.length := by
  obtain ⟨s, rfl⟩ := h
  have h1 : ("/" : String).length = 1 := rfl
  simp [String.length_append, h1]
  omega

theorem under_irrefl (p : String) : ¬ under p p := fun h =>
  Nat.lt_irrefl _ (under_length h)

theorem under_trans {a b c : String} (h1 : under a b) (h2 : under b c) :
    under a c := by
  obtain ⟨t, rfl⟩ := h1
  obtain ⟨s, rfl⟩ := h2
  refine ⟨t ++ "/" ++ s, String.ext ?_⟩
  simp [String.data_append]

theorem under_join (p n : String) : under p (joinPath p n) := ⟨n, rfl⟩

theorem under_join_split {lp n p : String} (hn : ¬ '/' ∈ n.data)
    (h : under p (joinPath lp n)) : p = lp ∨ under p lp := by
  obtain ⟨s, hs⟩ := h
  have hslash : ("/" : String).data = ['/'] := rfl
  have hd : lp.data ++ '/' :: n.data = p.data ++ '/' :: s.data := by
    have h2 := congrArg String.data hs
    simp only [joinPath, String.data_append, hslash] at h2
    simpa using h2
  rcases List.append_eq_append_iff.mp hd with ⟨a, ha1, ha2⟩ | ⟨c, hc1, hc2⟩
  · cases a with
    | nil =>
      left
      refine String.ext ?_
      simpa using ha1
    | cons x a =>
      exfalso
      rw [List.cons_append] at ha2
      injection ha2 with hx ht
      apply hn
      rw [ht]
      exact List.mem_append_right a (List.mem_cons_self _ _)
  · cases c with
    | nil =>
      left
      refine String.ext ?_
      simp at hc1
      exact hc1.symm
    | cons x c =>
      right
      rw [List.cons_append] at hc2
      injection hc2 with hx ht
      refine ⟨⟨c⟩, String.ext ?_⟩
      rw [String.data_append, String.data_append, hslash]
      rw [hc1, ← hx]
      simp

-- ## Sort lemmas

theorem insertDesc_perm (p : String) (l : List String) :
    (insertDesc p l).Perm (p :: l) := by
  induction l with
  | nil => exact List.Perm.refl _
  | cons q qs ih =>
    by_cases h : p.length ≤ q.length
    · simp only [insertDesc, if_pos h]
      exact (ih.cons q).trans (List.Perm.swap p q qs)
    · simp only [insertDesc, if_neg h]
      exact List.Perm.refl _

theorem sortDescLen_perm (l : List String) : (sortDescLen l).Perm l := by
  induction l with
  | nil => exact List.Perm.refl _
  | cons p ps ih =>
    exact (insertDesc_perm p (sortDescLen ps)).trans (ih.cons p)

theorem mem_sortDescLen {l : List String} {p : String} :
    p ∈ sortDescLen l ↔ p ∈ l :=
  (sortDescLen_perm l).mem_iff

theorem insertDesc_pairwise {p : String} {l : List String}
    (h : l.Pairwise (fun a b => b.length ≤ a.length)) :
    (insertDesc p l).Pairwise (fun a b => b.length ≤ a.length) := by
  induction l with
  | nil => simp [insertDesc]
  | cons q qs ih =>
    rcases List.pairwise_cons.mp h with ⟨hq, hqs⟩
    by_cases hpq : p.length ≤ q.length
    · simp only [insertDesc, if_pos hpq]
      refine List.pairwise_cons.mpr ⟨?_, ih hqs⟩
      intro x hx
      rcases List.mem_cons.mp ((insertDesc_perm p qs).mem_iff.mp hx) with rfl | hx
      · exact hpq
      · exact hq x hx
    · simp only [insertDesc, if_neg hpq]
      refine List.pairwise_cons.mpr ⟨?_, h⟩
      intro x hx
      rcases List.mem_cons.mp hx with rfl | hx
      · omega
      · exact Nat.le_trans (hq x hx) (Nat.le_of_lt (Nat.lt_of_not_le hpq))

theorem sortDescLen_pairwise (l : List String) :
    (sortDescLen l).Pairwise (fun a b => b.length ≤ a.length) := by
  induction l with
  | nil => simp [sortDescLen]
  | cons p ps ih => exact insertDesc_pairwise ih

-- ## Step lemmas for the traversal

theorem syncList_nil (env : Env) (since : Option Nat) (lp : String)
    (st : SyncState) : syncFolderRecursively env since [] lp st = st := rfl

theorem syncList_cons (env : Env) (since : Option Nat) (t : RTree)
    (ts : List RTree) (lp : String) (st : SyncState) :
    syncFolderRecursively env since (t :: ts) lp st =
      syncFolderRecursively env since ts lp (syncEntry env since t lp st) := rfl

theorem syncEntry_folder (env : Env) (since : Option Nat) (f : DriveFile)
    (cs : List RTree) (lp : String) (st : SyncState)
    (hf : f.mimeType = folderMime) :
    syncEntry env since (.node f cs) lp st =
      match mkdirAll st.fs (joinPath lp f.name) with
      | none =>
        { st with remotePaths := joinPath lp f.name :: st.remotePaths,
                  failures := st.failures + 1 }
      | some fs1 =>
        syncFolderRecursively env since cs (joinPath lp f.name)
          { st with fs := fs1,
                    remotePaths := joinPath lp f.name :: st.remotePaths } := by
  rw [syncEntry]
  simp only [if_pos hf]

theorem syncEntry_workspace (env : Env) (since : Option Nat) (f : DriveFile)
    (cs : List RTree) (lp : String) (st : SyncState)
    (hf : ¬ f.mimeType = folderMime)
    (hw : gappsMime.data.isPrefixOf f.mimeType.data = true) :
    syncEntry env since (.node f cs) lp st = st := by
  rw [syncEntry]
  simp only [if_neg hf, hw, if_true]

theorem syncEntry_file (env : Env) (since : Option Nat) (f : DriveFile)
    (cs : List RTree) (lp : String) (st : SyncState)
    (hf : ¬ f.mimeType = folderMime)
    (hw : ¬ gappsMime.data.isPrefixOf f.mimeType.data = true) :
    syncEntry env since (.node f cs) lp st =
      { st with
        fs := (downloadFile env f lp st.fs st.shaCache).fs
        shaCache := (downloadFile env f lp st.fs st.shaCache).shaCache
        remotePaths := joinPath lp f.name :: st.remotePaths
        downloads := st.downloads +
          (if (downloadFile env f lp st.fs st.shaCache).didDownload then 1 else 0)
        failures := st.failures +
          (if (downloadFile env f lp st.fs st.shaCache).failed then 1 else 0) } := by
  rw [syncEntry]
  simp only [if_neg hf, Bool.not_eq_true] at *
  simp only [hw, if_neg hf, Bool.false_eq_true, if_false]

theorem entryPaths_folder (f : DriveFile) (cs : List RTree) (lp : String)
    (hf : f.mimeType = folderMime) :
    entryPaths (.node f cs) lp =
      joinPath lp f.name :: treePaths cs (joinPath lp f.name) := by
  rw [entryPaths]
  simp only [if_pos hf]

theorem entryPaths_workspace (f : DriveFile) (cs : List RTree) (lp : String)
    (hf : ¬ f.mimeType = folderMime)
    (hw : gappsMime.data.isPrefixOf f.mimeType.data = true) :
    entryPaths (.node f cs) lp = [] := by
  rw [entryPaths]
  simp only [if_neg hf, hw, if_true]

theorem entryPaths_file (f : DriveFile) (cs : List RTree) (lp : String)
    (hf : ¬ f.mimeType = folderMime)
    (hw : ¬ gappsMime.data.isPrefixOf f.mimeType.data = true) :
    entryPaths (.node f cs) lp = [joinPath lp f.name] := by
  rw [entryPaths]
  simp only [Bool.not_eq_true] at hw
  simp only [if_neg hf, hw, Bool.false_eq_true, if_false]

theorem readyEntry_folder (fs : FS) (c : Cache) (f : DriveFile)
    (cs : List RTree) (lp : String) (hf : f.mimeType = folderMime) :
    readyEntry fs c (.node f cs) lp =
      (decide (lookupKV fs (joinPath lp f.name) = some .dir) &&
        readyList fs c cs (joinPath lp f.name)) := by
  rw [readyEntry]
  simp only [if_pos hf]

theorem readyEntry_workspace (fs : FS) (c : Cache) (f : DriveFile)
    (cs : List RTree) (lp : String) (hf : ¬ f.mimeType = folderMime)
    (hw : gappsMime.data.isPrefixOf f.mimeType.data = true) :
    readyEntry fs c (.node f cs) lp = true := by
  rw [readyEntry]
  simp only [if_neg hf, hw, if_true]

theorem readyEntry_file (fs : FS) (c : Cache) (f : DriveFile)
    (cs : List RTree) (lp : String) (hf : ¬ f.mimeType = folderMime)
    (hw : ¬ gappsMime.data.isPrefixOf f.mimeType.data = true) :
    readyEntry fs c (.node f cs) lp =
      ((lookupKV fs (joinPath lp f.name)).isSome &&
        decide (lookupKV c (joinPath lp f.name) = some f.sha256Checksum)) := by
  rw [readyEntry]
  simp only [Bool.not_eq_true] at hw
  simp only [if_neg hf, hw, Bool.false_eq_true, if_false]

-- ## downloadFile and mkdirAll lemmas

theorem mkdirAll_some {fs fs1 : FS} {p : String} (h : mkdirAll fs p = some fs1) :
    lookupKV fs1 p = some .dir ∧
      ∀ q, q ≠ p → lookupKV fs1 q = lookupKV fs q := by
  unfold mkdirAll at h
  cases he : lookupKV fs p with
  | none =>
    rw [he] at h
    injection h with h
    subst h
    refine ⟨?_, ?_⟩
    · rw [lookupKV_setKV, if_pos rfl]
    · intro q hq
      rw [lookupKV_setKV, if_neg (fun hh => hq hh.symm)]
  | some e =>
    rw [he] at h
    cases e with
    | file c => exact absurd h (by simp)
    | dir =>
      injection h with h
      subst h
      exact ⟨he, fun q _ => rfl⟩

/-- The skip branch of `downloadFile`: the file exists locally and the
cache holds exactly the remote checksum, so nothing happens. -/
theorem downloadFile_hit (env : Env) (f : DriveFile) (dir : String)
    (fs : FS) (c : Cache) (e : FSEntry)
    (hfs : lookupKV fs (joinPath dir f.name) = some e)
    (hc : lookupKV c (joinPath dir f.name) = some f.sha256Checksum) :
    downloadFile env f dir fs c = ⟨fs, c, false, false⟩ := by
  simp [downloadFile, hfs, hc]

/-- The download branch of `downloadFile`: a stale or missing cache
entry (or a missing local file) triggers exactly one download. -/
theorem downloadFile_miss (env : Env) (f : DriveFile) (dir : String)
    (fs : FS) (c : Cache)
    (hmiss : ∀ e, lookupKV fs (joinPath dir f.name) = some e →
      lookupKV c (joinPath dir f.name) ≠ some f.sha256Checksum) :
    downloadFile env f dir fs c =
      match env f.id with
      | .dlError => ⟨fs, c, true, true⟩
      | .createError => ⟨fs, c, true, true⟩
      | .writeError pc =>
        match lookupKV fs (joinPath dir f.name) with
        | some .dir => ⟨fs, c, true, true⟩
        | _ => ⟨setKV fs (joinPath dir f.name) (.file pc), c, true, true⟩
      | .ok co =>
        match lookupKV fs (joinPath dir f.name) with
        | some .dir => ⟨fs, c, true, true⟩
        | _ => ⟨setKV fs (joinPath dir f.name) (.file co),
                setKV c (joinPath dir f.name) f.sha256Checksum, true, false⟩ := by
  rcases hfs : lookupKV fs (joinPath dir f.name) with _ | e
  · simp only [downloadFile, hfs]
    rw [if_neg (by simp)]
  · rcases hc : lookupKV c (joinPath dir f.name) with _ | sha
    · simp only [downloadFile, hfs, hc]
      rw [if_neg (by simp)]
    · have hne : ¬ sha = f.sha256Checksum := by
        intro hh
        exact hmiss e hfs (by rw [hc, hh])
      simp only [downloadFile, hfs, hc]
      rw [if_neg (by simp [hne])]

theorem downloadFile_frame (env : Env) (f : DriveFile) (dir : String)
    (fs : FS) (c : Cache) (p : String) (hp : p ≠ joinPath dir f.name) :
    lookupKV (downloadFile env f dir fs c).fs p = lookupKV fs p ∧
      lookupKV (downloadFile env f dir fs c).shaCache p = lookupKV c p := by
  have hset : ∀ (e : FSEntry),
      lookupKV (setKV fs (joinPath dir f.name) e) p = lookupKV fs p := by
    intro e
    rw [lookupKV_setKV, if_neg (fun hh => hp hh.symm)]
  have hsetc : ∀ (s : String),
      lookupKV (setKV c (joinPath dir f.name) s) p = lookupKV c p := by
    intro s
    rw [lookupKV_setKV, if_neg (fun hh => hp hh.symm)]
  by_cases hhit : ∃ e, lookupKV fs (joinPath dir f.name) = some e ∧
      lookupKV c (joinPath dir f.name) = some f.sha256Checksum
  · obtain ⟨e, hfs, hc⟩ := hhit
    rw [downloadFile_hit env f dir fs c e hfs hc]
    exact ⟨rfl, rfl⟩
  · rw [downloadFile_miss env f dir fs c
      (fun e he hc => hhit ⟨e, he, hc⟩)]
    rcases he : env f.id with _ | _ | pc | co
    · exact ⟨rfl, rfl⟩
    · exact ⟨rfl, rfl⟩
    · rcases hfs : lookupKV fs (joinPath dir f.name) with _ | e
      · exact ⟨hset _, rfl⟩
      · rcases e with c0 | _
        · exact ⟨hset _, rfl⟩
        · exact ⟨rfl, rfl⟩
    · rcases hfs : lookupKV fs (joinPath dir f.name) with _ | e
      · exact ⟨hset _, hsetc _⟩
      · rcases e with c0 | _
        · exact ⟨hset _, hsetc _⟩
        · exact ⟨rfl, rfl⟩

theorem downloadFile_isSome_mono (env : Env) (f : DriveFile) (dir : String)
    (fs : FS) (c : Cache) (p : String)
    (h : (lookupKV fs p).isSome = true) :
    (lookupKV (downloadFile env f dir fs c).fs p).isSome = true := by
  by_cases hp : p = joinPath dir f.name
  swap
  · rw [(downloadFile_frame env f dir fs c p hp).1]
    exact h
  · subst hp
    have hset : ∀ (l : FS) (e : FSEntry),
        (lookupKV (setKV l (joinPath dir f.name) e) (joinPath dir f.name)).isSome
          = true := by
      intro l e
      rw [lookupKV_setKV, if_pos rfl]
      rfl
    by_cases hhit : ∃ e, lookupKV fs (joinPath dir f.name) = some e ∧
        lookupKV c (joinPath dir f.name) = some f.sha256Checksum
    · obtain ⟨e, hfs, hc⟩ := hhit
      rw [downloadFile_hit env f dir fs c e hfs hc]
      exact h
    · rw [downloadFile_miss env f dir fs c (fun e he hc => hhit ⟨e, he, hc⟩)]
      rcases he : env f.id with _ | _ | pc | co
      · exact h
      · exact h
      · rcases hfs : lookupKV fs (joinPath dir f.name) with _ | e
        · exact hset _ _
        · rcases e with c0 | _
          · exact hset _ _
          · exact h
      · rcases hfs : lookupKV fs (joinPath dir f.name) with _ | e
        · exact hset _ _
        · rcases e with c0 | _
          · exact hset _ _
          · exact h

theorem downloadFile_ok (env : Env) (f : DriveFile) (dir : String)
    (fs : FS) (c : Cache)
    (h : (downloadFile env f dir fs c).failed = false) :
    (lookupKV (downloadFile env f dir fs c).fs (joinPath dir f.name)).isSome
        = true ∧
      lookupKV (downloadFile env f dir fs c).shaCache (joinPath dir f.name) =
        some f.sha256Checksum := by
  have hset : ∀ (l : FS) (e : FSEntry),
      (lookupKV (setKV l (joinPath dir f.name) e) (joinPath dir f.name)).isSome
        = true := by
    intro l e
    rw [lookupKV_setKV, if_pos rfl]
    rfl
  have hsetc : ∀ (l : Cache) (s : String),
      lookupKV (setKV l (joinPath dir f.name) s) (joinPath dir f.name) =
        some s := by
    intro l s
    rw [lookupKV_setKV, if_pos rfl]
  by_cases hhit : ∃ e, lookupKV fs (joinPath dir f.name) = some e ∧
      lookupKV c (joinPath dir f.name) = some f.sha256Checksum
  · obtain ⟨e, hfs, hc⟩ := hhit
    rw [downloadFile_hit env f dir fs c e hfs hc] at h ⊢
    exact ⟨by rw [hfs]; rfl, hc⟩
  · rw [downloadFile_miss env f dir fs c (fun e he hc => hhit ⟨e, he, hc⟩)]
      at h ⊢
    rcases he : env f.id with _ | _ | pc | co <;>
      (try simp only [he] at h ⊢)
    · exact absurd h (by simp)
    · exact absurd h (by simp)
    · rcases hfs : lookupKV fs (joinPath dir f.name) with _ | e <;>
        (try simp only [hfs] at h ⊢)
      · exact absurd h (by simp)
      · rcases e with c0 | _ <;> (try simp only at h ⊢)
        · exact absurd h (by simp)
        · exact absurd h (by simp)
    · rcases hfs : lookupKV fs (joinPath dir f.name) with _ | e <;>
        (try simp only [hfs] at h ⊢)
      · exact ⟨hset _ _, hsetc _ _⟩
      · rcases e with c0 | _ <;> (try simp only at h ⊢)
        · exact ⟨hset _ _, hsetc _ _⟩
        · exact absurd h (by simp)

-- ## Traversal lemmas: monotonicity

mutual

theorem syncEntry_mono (env : Env) (since : Option Nat) (t : RTree)
    (lp : String) (st : SyncState) :
    st.failures ≤ (syncEntry env since t lp st).failures ∧
      st.downloads ≤ (syncEntry env since t lp st).downloads ∧
      (∀ p, p ∈ st.remotePaths → p ∈ (syncEntry env since t lp st).remotePaths) ∧
      (∀ p, (lookupKV st.fs p).isSome = true →
        (lookupKV (syncEntry env since t lp st).fs p).isSome = true) := by
  rcases t with ⟨f, cs⟩
  by_cases hf : f.mimeType = folderMime
  · rw [syncEntry_folder env since f cs lp st hf]
    rcases hmk : mkdirAll st.fs (joinPath lp f.name) with _ | fs1
    · exact ⟨Nat.le_add_right _ _, Nat.le_refl _,
        fun p hp => List.mem_cons_of_mem _ hp, fun p hp => hp⟩
    · obtain ⟨hmk1, hmk2⟩ := mkdirAll_some hmk
      have h2 := syncList_mono env since cs (joinPath lp f.name)
        { st with fs := fs1,
                  remotePaths := joinPath lp f.name :: st.remotePaths }
      refine ⟨h2.1, h2.2.1, ?_, ?_⟩
      · intro p hp
        exact h2.2.2.1 p (List.mem_cons_of_mem _ hp)
      · intro p hp
        refine h2.2.2.2 p ?_
        by_cases hpj : p = joinPath lp f.name
        · subst hpj
          rw [hmk1]
          rfl
        · rw [hmk2 p hpj]
          exact hp
  · by_cases hw : gappsMime.data.isPrefixOf f.mimeType.data = true
    · rw [syncEntry_workspace env since f cs lp st hf hw]
      exact ⟨Nat.le_refl _, Nat.le_refl _, fun p hp => hp, fun p hp => hp⟩
    · rw [syncEntry_file env since f cs lp st hf hw]
      exact ⟨Nat.le_add_right _ _, Nat.le_add_right _ _,
        fun p hp => List.mem_cons_of_mem _ hp,
        fun p hp => downloadFile_isSome_mono env f lp st.fs st.shaCache p hp⟩

theorem syncList_mono (env : Env) (since : Option Nat) (ts : List RTree)
    (lp : String) (st : SyncState) :
    st.failures ≤ (syncFolderRecursively env since ts lp st).failures ∧
      st.downloads ≤ (syncFolderRecursively env since ts lp st).downloads ∧
      (∀ p, p ∈ st.remotePaths →
        p ∈ (syncFolderRecursively env since ts lp st).remotePaths) ∧
      (∀ p, (lookupKV st.fs p).isSome = true →
        (lookupKV (syncFolderRecursively env since ts lp st).fs p).isSome
          = true) := by
  cases ts with
  | nil =>
    rw [syncList_nil]
    exact ⟨Nat.le_refl _, Nat.le_refl _, fun p hp => hp, fun p hp => hp⟩
  | cons t ts =>
    rw [syncList_cons]
    have h1 := syncEntry_mono env since t lp st
    have h2 := syncList_mono env since ts lp (syncEntry env since t lp st)
    exact ⟨Nat.le_trans h1.1 h2.1, Nat.le_trans h1.2.1 h2.2.1,
      fun p hp => h2.2.2.1 p (h1.2.2.1 p hp),
      fun p hp => h2.2.2.2 p (h1.2.2.2 p hp)⟩

end

-- ## Traversal lemmas: frame (untouched paths)

mutual

theorem syncEntry_frame (env : Env) (since : Option Nat) (t : RTree)
    (lp : String) (st : SyncState) (p : String)
    (hp : p ∉ entryPaths t lp) :
    lookupKV (syncEntry env since t lp st).fs p = lookupKV st.fs p ∧
      lookupKV (syncEntry env since t lp st).shaCache p =
        lookupKV st.shaCache p ∧
      ((p ∈ (syncEntry env since t lp st).remotePaths) ↔ p ∈ st.remotePaths) := by
  rcases t with ⟨f, cs⟩
  by_cases hf : f.mimeType = folderMime
  · rw [entryPaths_folder f cs lp hf] at hp
    have hne : p ≠ joinPath lp f.name := fun hh => hp (hh ▸ List.mem_cons_self _ _)
    have hnt : p ∉ treePaths cs (joinPath lp f.name) :=
      fun hh => hp (List.mem_cons_of_mem _ hh)
    rw [syncEntry_folder env since f cs lp st hf]
    rcases hmk : mkdirAll st.fs (joinPath lp f.name) with _ | fs1
    · exact ⟨rfl, rfl, by
        simp only [List.mem_cons]
        exact or_iff_right hne⟩
    · obtain ⟨hmk1, hmk2⟩ := mkdirAll_some hmk
      have h2 := syncList_frame env since cs (joinPath lp f.name)
        { st with fs := fs1,
                  remotePaths := joinPath lp f.name :: st.remotePaths } p hnt
      refine ⟨?_, h2.2.1, ?_⟩
      · rw [h2.1]
        exact hmk2 p hne
      · rw [h2.2.2]
        simp only [List.mem_cons]
        exact or_iff_right hne
  · by_cases hw : gappsMime.data.isPrefixOf f.mimeType.data = true
    · rw [syncEntry_workspace env since f cs lp st hf hw]
      exact ⟨rfl, rfl, Iff.rfl⟩
    · rw [entryPaths_file f cs lp hf hw] at hp
      have hne : p ≠ joinPath lp f.name := fun hh => hp (hh ▸ List.mem_cons_self _ _)
      rw [syncEntry_file env since f cs lp st hf hw]
      have h1 := downloadFile_frame env f lp st.fs st.shaCache p hne
      refine ⟨h1.1, h1.2, ?_⟩
      simp only [List.mem_cons]
      exact or_iff_right hne

theorem syncList_frame (env : Env) (since : Option Nat) (ts : List RTree)
    (lp : String) (st : SyncState) (p : String)
    (hp : p ∉ treePaths ts lp) :
    lookupKV (syncFolderRecursively env since ts lp st).fs p =
        lookupKV st.fs p ∧
      lookupKV (syncFolderRecursively env since ts lp st).shaCache p =
        lookupKV st.shaCache p ∧
      ((p ∈ (syncFolderRecursively env since ts lp st).remotePaths) ↔
        p ∈ st.remotePaths) := by
  cases ts with
  | nil =>
    rw [syncList_nil]
    exact ⟨rfl, rfl, Iff.rfl⟩
  | cons t ts =>
    rw [syncList_cons]
    rw [treePaths] at hp
    have hp1 : p ∉ entryPaths t lp := fun hh => hp (List.mem_append_left _ hh)
    have hp2 : p ∉ treePaths ts lp := fun hh => hp (List.mem_append_right _ hh)
    have h1 := syncEntry_frame env since t lp st p hp1
    have h2 := syncList_frame env since ts lp (syncEntry env since t lp st) p hp2
    exact ⟨h2.1.trans h1.1, h2.2.1.trans h1.2.1, h2.2.2.trans h1.2.2⟩

end

-- ## Traversal lemmas: every tree path is marked when nothing failed

mutual

theorem syncEntry_marks (env : Env) (since : Option Nat) (t : RTree)
    (lp : String) (st : SyncState)
    (h : (syncEntry env since t lp st).failures = st.failures) :
    ∀ p ∈ entryPaths t lp, p ∈ (syncEntry env since t lp st).remotePaths := by
  rcases t with ⟨f, cs⟩
  by_cases hf : f.mimeType = folderMime
  · rw [syncEntry_folder env since f cs lp st hf] at h ⊢
    rw [entryPaths_folder f cs lp hf]
    rcases hmk : mkdirAll st.fs (joinPath lp f.name) with _ | fs1 <;>
      (try simp only [hmk] at h ⊢)
    · simp at h
    · intro p hp
      rcases List.mem_cons.mp hp with rfl | hp
      · exact (syncList_mono env since cs (joinPath lp f.name) _).2.2.1 _
          (List.mem_cons_self _ _)
      · exact syncList_marks env since cs (joinPath lp f.name) _ h p hp
  · by_cases hw : gappsMime.data.isPrefixOf f.mimeType.data = true
    · rw [entryPaths_workspace f cs lp hf hw]
      intro p hp
      exact absurd hp (List.not_mem_nil p)
    · rw [syncEntry_file env since f cs lp st hf hw]
      rw [entryPaths_file f cs lp hf hw]
      intro p hp
      rcases List.mem_cons.mp hp with rfl | hp
      · exact List.mem_cons_self _ _
      · exact absurd hp (List.not_mem_nil p)

theorem syncList_marks (env : Env) (since : Option Nat) (ts : List RTree)
    (lp : String) (st : SyncState)
    (h : (syncFolderRecursively env since ts lp st).failures = st.failures) :
    ∀ p ∈ treePaths ts lp,
      p ∈ (syncFolderRecursively env since ts lp st).remotePaths := by
  cases ts with
  | nil =>
    rw [treePaths]
    intro p hp
    exact absurd hp (List.not_mem_nil p)
  | cons t ts =>
    rw [syncList_cons] at h ⊢
    have hm1 := (syncEntry_mono env since t lp st).1
    have hm2 := (syncList_mono env since ts lp (syncEntry env since t lp st)).1
    have he1 : (syncEntry env since t lp st).failures = st.failures := by omega
    have he2 : (syncFolderRecursively env since ts lp
        (syncEntry env since t lp st)).failures =
        (syncEntry env since t lp st).failures := by omega
    rw [treePaths]
    intro p hp
    rcases List.mem_append.mp hp with hp | hp
    · exact (syncList_mono env since ts lp (syncEntry env since t lp st)).2.2.1 p
        (syncEntry_marks env since t lp st he1 p hp)
    · exact syncList_marks env since ts lp (syncEntry env since t lp st) he2 p hp

end

-- ## Traversal lemmas: every marked path exists locally when nothing failed

mutual

theorem syncEntry_marked_exists (env : Env) (since : Option Nat) (t : RTree)
    (lp : String) (st : SyncState)
    (h : (syncEntry env since t lp st).failures = st.failures)
    (hseed : ∀ q ∈ st.remotePaths, (lookupKV st.fs q).isSome = true) :
    ∀ q ∈ (syncEntry env since t lp st).remotePaths,
      (lookupKV (syncEntry env since t lp st).fs q).isSome = true := by
  rcases t with ⟨f, cs⟩
  by_cases hf : f.mimeType = folderMime
  · rw [syncEntry_folder env since f cs lp st hf] at h ⊢
    rcases hmk : mkdirAll st.fs (joinPath lp f.name) with _ | fs1 <;>
      (try simp only [hmk] at h ⊢)
    · simp at h
    · obtain ⟨hmk1, hmk2⟩ := mkdirAll_some hmk
      refine syncList_marked_exists env since cs (joinPath lp f.name) _ h ?_
      intro q hq
      rcases List.mem_cons.mp hq with rfl | hq
      · rw [hmk1]
        rfl
      · by_cases hqe : q = joinPath lp f.name
        · subst hqe
          rw [hmk1]
          rfl
        · rw [hmk2 q hqe]
          exact hseed q hq
  · by_cases hw : gappsMime.data.isPrefixOf f.mimeType.data = true
    · rw [syncEntry_workspace env since f cs lp st hf hw]
      exact hseed
    · rw [syncEntry_file env since f cs lp st hf hw] at h ⊢
      have hfl : (downloadFile env f lp st.fs st.shaCache).failed = false := by
        rcases hb : (downloadFile env f lp st.fs st.shaCache).failed
        · rfl
        · rw [hb] at h
          simp at h
      intro q hq
      rcases List.mem_cons.mp hq with rfl | hq
      · exact (downloadFile_ok env f lp st.fs st.shaCache hfl).1
      · exact downloadFile_isSome_mono env f lp st.fs st.shaCache q (hseed q hq)

theorem syncList_marked_exists (env : Env) (since : Option Nat)
    (ts : List RTree) (lp : String) (st : SyncState)
    (h : (syncFolderRecursively env since ts lp st).failures = st.failures)
    (hseed : ∀ q ∈ st.remotePaths, (lookupKV st.fs q).isSome = true) :
    ∀ q ∈ (syncFolderRecursively env since ts lp st).remotePaths,
      (lookupKV (syncFolderRecursively env since ts lp st).fs q).isSome
        = true := by
  cases ts with
  | nil =>
    rw [syncList_nil]
    exact hseed
  | cons t ts =>
    rw [syncList_cons] at h ⊢
    have hm1 := (syncEntry_mono env since t lp st).1
    have hm2 := (syncList_mono env since ts lp (syncEntry env since t lp st)).1
    have he1 : (syncEntry env since t lp st).failures = st.failures := by omega
    have he2 : (syncFolderRecursively env since ts lp
        (syncEntry env since t lp st)).failures =
        (syncEntry env since t lp st).failures := by omega
    exact syncList_marked_exists env since ts lp (syncEntry env since t lp st)
      he2 (syncEntry_marked_exists env since t lp st he1 hseed)

end

-- ## Tree paths sit strictly below the local mount point

mutual

theorem entryPaths_under (t : RTree) (lp : String) :
    ∀ q ∈ entryPaths t lp, under lp q := by
  rcases t with ⟨f, cs⟩
  by_cases hf : f.mimeType = folderMime
  · rw [entryPaths_folder f cs lp hf]
    intro q hq
    rcases List.mem_cons.mp hq with rfl | hq
    · exact under_join lp f.name
    · exact under_trans (under_join lp f.name)
        (treePaths_under cs (joinPath lp f.name) q hq)
  · by_cases hw : gappsMime.data.isPrefixOf f.mimeType.data = true
    · rw [entryPaths_workspace f cs lp hf hw]
      intro q hq
      exact absurd hq (List.not_mem_nil q)
    · rw [entryPaths_file f cs lp hf hw]
      intro q hq
      rcases List.mem_cons.mp hq with rfl | hq
      · exact under_join lp f.name
      · exact absurd hq (List.not_mem_nil q)

theorem treePaths_under (ts : List RTree) (lp : String) :
    ∀ q ∈ treePaths ts lp, under lp q := by
  cases ts with
  | nil =>
    rw [treePaths]
    intro q hq
    exact absurd hq (List.not_mem_nil q)
  | cons t ts =>
    rw [treePaths]
    intro q hq
    rcases List.mem_append.mp hq with hq | hq
    · exact entryPaths_under t lp q hq
    · exact treePaths_under ts lp q hq

end

theorem self_not_mem_treePaths (ts : List RTree) (lp : String) :
    lp ∉ treePaths ts lp := fun h =>
  under_irrefl lp (treePaths_under ts lp lp h)

-- ## The traversal ignores `since` entirely

mutual

theorem syncEntry_since (env : Env) (s1 s2 : Option Nat) (t : RTree)
    (lp : String) (st : SyncState) :
    syncEntry env s1 t lp st = syncEntry env s2 t lp st := by
  rcases t with ⟨f, cs⟩
  by_cases hf : f.mimeType = folderMime
  · rw [syncEntry_folder env s1 f cs lp st hf,
      syncEntry_folder env s2 f cs lp st hf]
    rcases hmk : mkdirAll st.fs (joinPath lp f.name) with _ | fs1
    · rfl
    · exact syncList_since env s1 s2 cs (joinPath lp f.name) _
  · by_cases hw : gappsMime.data.isPrefixOf f.mimeType.data = true
    · rw [syncEntry_workspace env s1 f cs lp st hf hw,
        syncEntry_workspace env s2 f cs lp st hf hw]
    · rw [syncEntry_file env s1 f cs lp st hf hw,
        syncEntry_file env s2 f cs lp st hf hw]

theorem syncList_since (env : Env) (s1 s2 : Option Nat) (ts : List RTree)
    (lp : String) (st : SyncState) :
    syncFolderRecursively env s1 ts lp st =
      syncFolderRecursively env s2 ts lp st := by
  cases ts with
  | nil => rfl
  | cons t ts =>
    rw [syncList_cons, syncList_cons, syncEntry_since env s1 s2 t lp st]
    exact syncList_since env s1 s2 ts lp _

end

-- ## Readiness only depends on the entry's own paths

mutual

theorem readyEntry_congr (fs1 fs2 : FS) (c1 c2 : Cache) (t : RTree)
    (lp : String)
    (h : ∀ p ∈ entryPaths t lp,
      lookupKV fs2 p = lookupKV fs1 p ∧ lookupKV c2 p = lookupKV c1 p) :
    readyEntry fs2 c2 t lp = readyEntry fs1 c1 t lp := by
  rcases t with ⟨f, cs⟩
  by_cases hf : f.mimeType = folderMime
  · rw [entryPaths_folder f cs lp hf] at h
    rw [readyEntry_folder fs2 c2 f cs lp hf, readyEntry_folder fs1 c1 f cs lp hf]
    rw [(h (joinPath lp f.name) (List.mem_cons_self _ _)).1]
    rw [readyList_congr fs1 fs2 c1 c2 cs (joinPath lp f.name)
      (fun p hp => h p (List.mem_cons_of_mem _ hp))]
  · by_cases hw : gappsMime.data.isPrefixOf f.mimeType.data = true
    · rw [readyEntry_workspace fs2 c2 f cs lp hf hw,
        readyEntry_workspace fs1 c1 f cs lp hf hw]
    · rw [entryPaths_file f cs lp hf hw] at h
      rw [readyEntry_file fs2 c2 f cs lp hf hw,
        readyEntry_file fs1 c1 f cs lp hf hw]
      rw [(h (joinPath lp f.name) (List.mem_cons_self _ _)).1,
        (h (joinPath lp f.name) (List.mem_cons_self _ _)).2]

theorem readyList_congr (fs1 fs2 : FS) (c1 c2 : Cache) (ts : List RTree)
    (lp : String)
    (h : ∀ p ∈ treePaths ts lp,
      lookupKV fs2 p = lookupKV fs1 p ∧ lookupKV c2 p = lookupKV c1 p) :
    readyList fs2 c2 ts lp = readyList fs1 c1 ts lp := by
  cases ts with
  | nil => rfl
  | cons t ts =>
    rw [treePaths] at h
    rw [readyList, readyList]
    rw [readyEntry_congr fs1 fs2 c1 c2 t lp
      (fun p hp => h p (List.mem_append_left _ hp))]
    rw [readyList_congr fs1 fs2 c1 c2 ts lp
      (fun p hp => h p (List.mem_append_right _ hp))]

end

-- ## A failure-free traversal leaves every entry ready

mutual

theorem syncEntry_ready (env : Env) (since : Option Nat) (t : RTree)
    (lp : String) (st : SyncState)
    (h : (syncEntry env since t lp st).failures = st.failures)
    (hnd : (entryPaths t lp).Nodup) :
    readyEntry (syncEntry env since t lp st).fs
      (syncEntry env since t lp st).shaCache t lp = true := by
  rcases t with ⟨f, cs⟩
  by_cases hf : f.mimeType = folderMime
  · rw [syncEntry_folder env since f cs lp st hf] at h ⊢
    rw [entryPaths_folder f cs lp hf] at hnd
    rcases hmk : mkdirAll st.fs (joinPath lp f.name) with _ | fs1 <;>
      (try simp only [hmk] at h ⊢)
    · simp at h
    · obtain ⟨hmk1, hmk2⟩ := mkdirAll_some hmk
      rw [readyEntry_folder _ _ f cs lp hf]
      have hfr := syncList_frame env since cs (joinPath lp f.name)
        { st with fs := fs1,
                  remotePaths := joinPath lp f.name :: st.remotePaths }
        (joinPath lp f.name)
        (self_not_mem_treePaths cs (joinPath lp f.name))
      rw [Bool.and_eq_true]
      constructor
      · rw [hfr.1]
        simp [hmk1]
      · exact syncList_ready env since cs (joinPath lp f.name) _ h
          (List.Nodup.of_cons hnd)
  · by_cases hw : gappsMime.data.isPrefixOf f.mimeType.data = true
    · rw [syncEntry_workspace env since f cs lp st hf hw]
      rw [readyEntry_workspace _ _ f cs lp hf hw]
    · rw [syncEntry_file env since f cs lp st hf hw] at h ⊢
      have hfl : (downloadFile env f lp st.fs st.shaCache).failed = false := by
        rcases hb : (downloadFile env f lp st.fs st.shaCache).failed
        · rfl
        · rw [hb] at h
          simp at h
      have hok := downloadFile_ok env f lp st.fs st.shaCache hfl
      rw [readyEntry_file _ _ f cs lp hf hw]
      rw [Bool.and_eq_true]
      exact ⟨hok.1, by simp [hok.2]⟩

theorem syncList_ready (env : Env) (since : Option Nat) (ts : List RTree)
    (lp : String) (st : SyncState)
    (h : (syncFolderRecursively env since ts lp st).failures = st.failures)
    (hnd : (treePaths ts lp).Nodup) :
    readyList (syncFolderRecursively env since ts lp st).fs
      (syncFolderRecursively env since ts lp st).shaCache ts lp = true := by
  cases ts with
  | nil => rfl
  | cons t ts =>
    rw [syncList_cons] at h ⊢
    rw [treePaths] at hnd
    have hm1 := (syncEntry_mono env since t lp st).1
    have hm2 := (syncList_mono env since ts lp (syncEntry env since t lp st)).1
    have he1 : (syncEntry env since t lp st).failures = st.failures := by omega
    have he2 : (syncFolderRecursively env since ts lp
        (syncEntry env since t lp st)).failures =
        (syncEntry env since t lp st).failures := by omega
    rcases List.nodup_append.mp hnd with ⟨hnd1, hnd2, hdisj⟩
    rw [readyList, Bool.and_eq_true]
    constructor
    · have hre := syncEntry_ready env since t lp st he1 hnd1
      rw [readyEntry_congr (syncEntry env since t lp st).fs
        (syncFolderRecursively env since ts lp (syncEntry env since t lp st)).fs
        (syncEntry env since t lp st).shaCache
        (syncFolderRecursively env since ts lp
          (syncEntry env since t lp st)).shaCache t lp
        (fun p hp =>
          ⟨(syncList_frame env since ts lp (syncEntry env since t lp st) p
              (fun hh => hdisj hp hh)).1,
           (syncList_frame env since ts lp (syncEntry env since t lp st) p
              (fun hh => hdisj hp hh)).2.1⟩)]
      exact hre
    · exact syncList_ready env since ts lp (syncEntry env since t lp st) he2 hnd2

end

-- ## Closure of the remote-path set

theorem pathsClosed_cons {S : List String} (lp n : String) (hlp : lp ∈ S)
    (h : pathsClosed S) : pathsClosed (joinPath lp n :: S) := by
  intro q hq
  rcases List.mem_cons.mp hq with rfl | hq
  · exact Or.inr ⟨lp, n, List.mem_cons_of_mem _ hlp, rfl⟩
  · rcases h q hq with hq1 | ⟨p, m, hp, hq2⟩
    · exact Or.inl hq1
    · exact Or.inr ⟨p, m, List.mem_cons_of_mem _ hp, hq2⟩

theorem ancClosed_cons {S : List String} (lp n : String)
    (hn : ¬ '/' ∈ n.data) (hlp : lp ∈ S) (h : ancClosed S) :
    ancClosed (joinPath lp n :: S) := by
  intro q hq p hpq hroot
  rcases List.mem_cons.mp hq with rfl | hq
  · rcases under_join_split hn hpq with rfl | hpl
    · exact List.mem_cons_of_mem _ hlp
    · exact List.mem_cons_of_mem _ (h lp hlp p hpl hroot)
  · exact List.mem_cons_of_mem _ (h q hq p hpq hroot)

theorem entryNamesOk_parts {f : DriveFile} {cs : List RTree}
    (h : entryNamesOk (.node f cs) = true) :
    ¬ '/' ∈ f.name.data ∧ namesOk cs = true := by
  rw [entryNamesOk] at h
  simp only [Bool.and_eq_true, Bool.not_eq_true'] at h
  refine ⟨?_, h.2⟩
  intro hmem
  have hc := h.1.2
  have : List.elem '/' f.name.data = true := List.elem_eq_true_of_mem hmem
  rw [show f.name.data.contains '/' = List.elem '/' f.name.data from rfl] at hc
  rw [this] at hc
  exact Bool.true_eq_false.mp hc

mutual

theorem syncEntry_closed (env : Env) (since : Option Nat) (t : RTree)
    (lp : String) (st : SyncState) (hlp : lp ∈ st.remotePaths)
    (hcl : pathsClosed st.remotePaths) :
    lp ∈ (syncEntry env since t lp st).remotePaths ∧
      pathsClosed (syncEntry env since t lp st).remotePaths := by
  rcases t with ⟨f, cs⟩
  by_cases hf : f.mimeType = folderMime
  · rw [syncEntry_folder env since f cs lp st hf]
    rcases hmk : mkdirAll st.fs (joinPath lp f.name) with _ | fs1
    · exact ⟨List.mem_cons_of_mem _ hlp, pathsClosed_cons lp f.name hlp hcl⟩
    · have h2 := syncList_closed env since cs (joinPath lp f.name)
        { st with fs := fs1,
                  remotePaths := joinPath lp f.name :: st.remotePaths }
        (List.mem_cons_self _ _) (pathsClosed_cons lp f.name hlp hcl)
      refine ⟨?_, h2.2⟩
      exact (syncList_mono env since cs (joinPath lp f.name) _).2.2.1 lp
        (List.mem_cons_of_mem _ hlp)
  · by_cases hw : gappsMime.data.isPrefixOf f.mimeType.data = true
    · rw [syncEntry_workspace env since f cs lp st hf hw]
      exact ⟨hlp, hcl⟩
    · rw [syncEntry_file env since f cs lp st hf hw]
      exact ⟨List.mem_cons_of_mem _ hlp, pathsClosed_cons lp f.name hlp hcl⟩

theorem syncList_closed (env : Env) (since : Option Nat) (ts : List RTree)
    (lp : String) (st : SyncState) (hlp : lp ∈ st.remotePaths)
    (hcl : pathsClosed st.remotePaths) :
    lp ∈ (syncFolderRecursively env since ts lp st).remotePaths ∧
      pathsClosed (syncFolderRecursively env since ts lp st).remotePaths := by
  cases ts with
  | nil => exact ⟨hlp, hcl⟩
  | cons t ts =>
    rw [syncList_cons]
    have h1 := syncEntry_closed env since t lp st hlp hcl
    exact syncList_closed env since ts lp (syncEntry env since t lp st) h1.1 h1.2

end

mutual

theorem syncEntry_anc (env : Env) (since : Option Nat) (t : RTree)
    (lp : String) (st : SyncState) (hn : entryNamesOk t = true)
    (hlp : lp ∈ st.remotePaths) (hanc : ancClosed st.remotePaths) :
    lp ∈ (syncEntry env since t lp st).remotePaths ∧
      ancClosed (syncEntry env since t lp st).remotePaths := by
  rcases t with ⟨f, cs⟩
  obtain ⟨hn1, hn2⟩ := entryNamesOk_parts hn
  by_cases hf : f.mimeType = folderMime
  · rw [syncEntry_folder env since f cs lp st hf]
    rcases hmk : mkdirAll st.fs (joinPath lp f.name) with _ | fs1
    · exact ⟨List.mem_cons_of_mem _ hlp, ancClosed_cons lp f.name hn1 hlp hanc⟩
    · have h2 := syncList_anc env since cs (joinPath lp f.name)
        { st with fs := fs1,
                  remotePaths := joinPath lp f.name :: st.remotePaths }
        hn2 (List.mem_cons_self _ _) (ancClosed_cons lp f.name hn1 hlp hanc)
      refine ⟨?_, h2.2⟩
      exact (syncList_mono env since cs (joinPath lp f.name) _).2.2.1 lp
        (List.mem_cons_of_mem _ hlp)
  · by_cases hw : gappsMime.data.isPrefixOf f.mimeType.data = true
    · rw [syncEntry_workspace env since f cs lp st hf hw]
      exact ⟨hlp, hanc⟩
    · rw [syncEntry_file env since f cs lp st hf hw]
      exact ⟨List.mem_cons_of_mem _ hlp, ancClosed_cons lp f.name hn1 hlp hanc⟩

theorem syncList_anc (env : Env) (since : Option Nat) (ts : List RTree)
    (lp : String) (st : SyncState) (hn : namesOk ts = true)
    (hlp : lp ∈ st.remotePaths) (hanc : ancClosed st.remotePaths) :
    lp ∈ (syncFolderRecursively env since ts lp st).remotePaths ∧
      ancClosed (syncFolderRecursively env since ts lp st).remotePaths := by
  cases ts with
  | nil => exact ⟨hlp, hanc⟩
  | cons t ts =>
    rw [syncList_cons]
    rw [namesOk, Bool.and_eq_true] at hn
    have h1 := syncEntry_anc env since t lp st hn.1 hlp hanc
    exact syncList_anc env since ts lp (syncEntry env since t lp st) hn.2
      h1.1 h1.2

end

-- ## The cache-points-at-a-file invariant is preserved

theorem downloadFile_invCF (env : Env) (f : DriveFile) (dir : String)
    (fs : FS) (c : Cache) (h : InvCF fs c) :
    InvCF (downloadFile env f dir fs c).fs
      (downloadFile env f dir fs c).shaCache := by
  by_cases hhit : ∃ e, lookupKV fs (joinPath dir f.name) = some e ∧
      lookupKV c (joinPath dir f.name) = some f.sha256Checksum
  · obtain ⟨e, hfs, hc⟩ := hhit
    rw [downloadFile_hit env f dir fs c e hfs hc]
    exact h
  · rw [downloadFile_miss env f dir fs c (fun e he hc => hhit ⟨e, he, hc⟩)]
    rcases he : env f.id with _ | _ | pc | co
    · exact h
    · exact h
    · rcases hfs : lookupKV fs (joinPath dir f.name) with _ | e <;>
        (try rcases e with c0 | _)
      all_goals try exact h
      all_goals
        intro q s hq
        by_cases hqe : q = joinPath dir f.name
        · subst hqe
          exact ⟨pc, by rw [lookupKV_setKV, if_pos rfl]⟩
        · obtain ⟨cc, hcc⟩ := h q s hq
          refine ⟨cc, ?_⟩
          rw [lookupKV_setKV, if_neg (fun hh => hqe hh.symm)]
          exact hcc
    · rcases hfs : lookupKV fs (joinPath dir f.name) with _ | e <;>
        (try rcases e with c0 | _)
      all_goals try exact h
      all_goals
        intro q s hq
        by_cases hqe : q = joinPath dir f.name
        · subst hqe
          exact ⟨co, by rw [lookupKV_setKV, if_pos rfl]⟩
        · rw [lookupKV_setKV, if_neg (fun hh => hqe hh.symm)] at hq
          obtain ⟨cc, hcc⟩ := h q s hq
          refine ⟨cc, ?_⟩
          rw [lookupKV_setKV, if_neg (fun hh => hqe hh.symm)]
          exact hcc

theorem mkdirAll_invCF {fs fs1 : FS} {p : String} (c : Cache)
    (hmk : mkdirAll fs p = some fs1) (h : InvCF fs c) : InvCF fs1 c := by
  obtain ⟨hmk1, hmk2⟩ := mkdirAll_some hmk
  intro q s hq
  by_cases hqe : q = p
  · subst hqe
    obtain ⟨cc, hcc⟩ := h q s hq
    unfold mkdirAll at hmk
    rw [hcc] at hmk
    exact absurd hmk (by simp)
  · rw [hmk2 q hqe]
    exact h q s hq

mutual

theorem syncEntry_invCF (env : Env) (since : Option Nat) (t : RTree)
    (lp : String) (st : SyncState) (h : InvCF st.fs st.shaCache) :
    InvCF (syncEntry env since t lp st).fs
      (syncEntry env since t lp st).shaCache := by
  rcases t with ⟨f, cs⟩
  by_cases hf : f.mimeType = folderMime
  · rw [syncEntry_folder env since f cs lp st hf]
    rcases hmk : mkdirAll st.fs (joinPath lp f.name) with _ | fs1
    · exact h
    · exact syncList_invCF env since cs (joinPath lp f.name) _
        (mkdirAll_invCF st.shaCache hmk h)
  · by_cases hw : gappsMime.data.isPrefixOf f.mimeType.data = true
    · rw [syncEntry_workspace env since f cs lp st hf hw]
      exact h
    · rw [syncEntry_file env since f cs lp st hf hw]
      exact downloadFile_invCF env f lp st.fs st.shaCache h

theorem syncList_invCF (env : Env) (since : Option Nat) (ts : List RTree)
    (lp : String) (st : SyncState) (h : InvCF st.fs st.shaCache) :
    InvCF (syncFolderRecursively env since ts lp st).fs
      (syncFolderRecursively env since ts lp st).shaCache := by
  cases ts with
  | nil => exact h
  | cons t ts =>
    rw [syncList_cons]
    exact syncList_invCF env since ts lp (syncEntry env since t lp st)
      (syncEntry_invCF env since t lp st h)

end

-- ## Pruning lemmas

theorem removePath_some {fs fs1 : FS} {p : String}
    (h : removePath fs p = some fs1) : fs1 = eraseKV fs p := by
  unfold removePath at h
  rcases hl : lookupKV fs p with _ | e
  · rw [hl] at h
    exact absurd h (by simp)
  · rw [hl] at h
    rcases e with c0 | _
    · injection h with h
      exact h.symm
    · by_cases ha : fs.any (fun x => underB p x.1) = true
      · rw [if_pos ha] at h
        exact absurd h (by simp)
      · rw [if_neg ha] at h
        injection h with h
        exact h.symm

theorem pruneSteps_failures_mono (l : List String) (acc : PruneRes) :
    acc.failures ≤ (l.foldl pruneStep acc).failures := by
  induction l generalizing acc with
  | nil => exact Nat.le_refl _
  | cons q l ih =>
    rw [List.foldl_cons]
    refine Nat.le_trans ?_ (ih (pruneStep acc q))
    unfold pruneStep
    rcases removePath acc.fs q with _ | fs1
    · exact Nat.le_add_right _ _
    · exact Nat.le_refl _

theorem pruneSteps_frame (l : List String) (acc : PruneRes) (p : String)
    (hp : p ∉ l) :
    lookupKV (l.foldl pruneStep acc).fs p = lookupKV acc.fs p ∧
      lookupKV (l.foldl pruneStep acc).shaCache p =
        lookupKV acc.shaCache p := by
  induction l generalizing acc with
  | nil => exact ⟨rfl, rfl⟩
  | cons q l ih =>
    have hpq : p ≠ q := fun hh => hp (hh ▸ List.mem_cons_self _ _)
    have hpl : p ∉ l := fun hh => hp (List.mem_cons_of_mem _ hh)
    rw [List.foldl_cons]
    have h2 := ih (pruneStep acc q) hpl
    refine ⟨h2.1.trans ?_, h2.2.trans ?_⟩
    · unfold pruneStep
      rcases hrm : removePath acc.fs q with _ | fs1
      · rfl
      · rw [removePath_some hrm]
        rw [lookupKV_eraseKV, if_neg (fun hh => hpq hh.symm)]
    · unfold pruneStep
      rcases hrm : removePath acc.fs q with _ | fs1
      · rfl
      · rw [lookupKV_eraseKV, if_neg (fun hh => hpq hh.symm)]

theorem pruneSteps_none (l : List String) (acc : PruneRes) (p : String)
    (h : lookupKV acc.fs p = none) :
    lookupKV (l.foldl pruneStep acc).fs p = none := by
  induction l generalizing acc with
  | nil => exact h
  | cons q l ih =>
    rw [List.foldl_cons]
    refine ih (pruneStep acc q) ?_
    unfold pruneStep
    rcases hrm : removePath acc.fs q with _ | fs1
    · exact h
    · rw [removePath_some hrm]
      rw [lookupKV_eraseKV]
      by_cases hq : q = p
      · rw [if_pos hq]
      · rw [if_neg hq]
        exact h

theorem pruneSteps_noadd (l : List String) (acc : PruneRes) (p : String)
    (h : (lookupKV (l.foldl pruneStep acc).fs p).isSome = true) :
    (lookupKV acc.fs p).isSome = true := by
  rcases hl : lookupKV acc.fs p with _ | e
  · rw [pruneSteps_none l acc p hl] at h
    exact absurd h (by simp)
  · rfl

theorem pruneSteps_success (l : List String) (acc : PruneRes)
    (h : (l.foldl pruneStep acc).failures = acc.failures) :
    ∀ q ∈ l, lookupKV (l.foldl pruneStep acc).fs q = none := by
  induction l generalizing acc with
  | nil =>
    intro q hq
    exact absurd hq (List.not_mem_nil q)
  | cons q l ih =>
    rw [List.foldl_cons] at h ⊢
    rcases hrm : removePath acc.fs q with _ | fs1
    · exfalso
      have h1 := pruneSteps_failures_mono l (pruneStep acc q)
      unfold pruneStep at h h1
      rw [hrm] at h h1
      simp only at h h1
      omega
    · have hstep : pruneStep acc q =
          ⟨eraseKV acc.fs q, eraseKV acc.shaCache q, acc.failures⟩ := by
        unfold pruneStep
        rw [hrm, removePath_some hrm]
      intro p hp
      rcases List.mem_cons.mp hp with hpq | hp
      · refine pruneSteps_none l (pruneStep acc q) p ?_
        rw [hstep, hpq]
        rw [lookupKV_eraseKV, if_pos rfl]
      · refine ih (pruneStep acc q) ?_ p hp
        rw [hstep] at h ⊢
        exact h

theorem stalePaths_mem (root : String) (fs : FS) (rp : List String)
    (p : String) :
    p ∈ stalePaths root fs rp ↔
      p ∈ fs.map Prod.fst ∧ (p = root ∨ underB root p = true) ∧ p ∉ rp := by
  unfold stalePaths walkPaths
  simp only [List.mem_filter, decide_eq_true_eq, Bool.or_eq_true]
  tauto

theorem pruneLocalFiles_frame (root : String) (fs : FS) (rp : List String)
    (c : Cache) (p : String) (hp : p ∈ rp) :
    lookupKV (pruneLocalFiles root fs rp c).fs p = lookupKV fs p ∧
      lookupKV (pruneLocalFiles root fs rp c).shaCache p = lookupKV c p := by
  unfold pruneLocalFiles
  refine pruneSteps_frame _ _ p ?_
  intro hmem
  exact ((stalePaths_mem root fs rp p).mp (mem_sortDescLen.mp hmem)).2.2 hp

theorem pruneStep_invCF (acc : PruneRes) (q : String)
    (h : InvCF acc.fs acc.shaCache) :
    InvCF (pruneStep acc q).fs (pruneStep acc q).shaCache := by
  unfold pruneStep
  rcases hrm : removePath acc.fs q with _ | fs1
  · exact h
  · rw [removePath_some hrm]
    intro p s hp
    rw [lookupKV_eraseKV] at hp
    by_cases hq : q = p
    · rw [if_pos hq] at hp
      exact absurd hp (by simp)
    · rw [if_neg hq] at hp
      obtain ⟨cc, hcc⟩ := h p s hp
      refine ⟨cc, ?_⟩
      rw [lookupKV_eraseKV, if_neg hq]
      exact hcc

theorem pruneSteps_invCF (l : List String) (acc : PruneRes)
    (h : InvCF acc.fs acc.shaCache) :
    InvCF (l.foldl pruneStep acc).fs (l.foldl pruneStep acc).shaCache := by
  induction l generalizing acc with
  | nil => exact h
  | cons q l ih =>
    rw [List.foldl_cons]
    exact ih (pruneStep acc q) (pruneStep_invCF acc q h)

-- ## A ready tree makes the traversal a no-op

mutual

theorem syncEntry_ready_id (env : Env) (since : Option Nat) (t : RTree)
    (lp : String) (st : SyncState)
    (h : readyEntry st.fs st.shaCache t lp = true) :
    (syncEntry env since t lp st).fs = st.fs ∧
      (syncEntry env since t lp st).shaCache = st.shaCache ∧
      (syncEntry env since t lp st).downloads = st.downloads ∧
      (syncEntry env since t lp st).failures = st.failures := by
  rcases t with ⟨f, cs⟩
  by_cases hf : f.mimeType = folderMime
  · rw [readyEntry_folder st.fs st.shaCache f cs lp hf, Bool.and_eq_true,
      decide_eq_true_eq] at h
    have hmk : mkdirAll st.fs (joinPath lp f.name) = some st.fs := by
      unfold mkdirAll
      rw [h.1]
    rw [syncEntry_folder env since f cs lp st hf, hmk]
    exact syncList_ready_id env since cs (joinPath lp f.name)
      { st with fs := st.fs,
                remotePaths := joinPath lp f.name :: st.remotePaths } h.2
  · by_cases hw : gappsMime.data.isPrefixOf f.mimeType.data = true
    · rw [syncEntry_workspace env since f cs lp st hf hw]
      exact ⟨rfl, rfl, rfl, rfl⟩
    · rw [readyEntry_file st.fs st.shaCache f cs lp hf hw, Bool.and_eq_true,
        decide_eq_true_eq] at h
      rcases hfs : lookupKV st.fs (joinPath lp f.name) with _ | e
      · rw [hfs] at h
        exact absurd h.1 (by simp)
      · rw [syncEntry_file env since f cs lp st hf hw]
        rw [downloadFile_hit env f lp st.fs st.shaCache e hfs h.2]
        exact ⟨rfl, rfl, by simp, by simp⟩

theorem syncList_ready_id (env : Env) (since : Option Nat) (ts : List RTree)
    (lp : String) (st : SyncState)
    (h : readyList st.fs st.shaCache ts lp = true) :
    (syncFolderRecursively env since ts lp st).fs = st.fs ∧
      (syncFolderRecursively env since ts lp st).shaCache = st.shaCache ∧
      (syncFolderRecursively env since ts lp st).downloads = st.downloads ∧
      (syncFolderRecursively env since ts lp st).failures = st.failures := by
  cases ts with
  | nil => exact ⟨rfl, rfl, rfl, rfl⟩
  | cons t ts =>
    rw [readyList, Bool.and_eq_true] at h
    rw [syncList_cons]
    have h1 := syncEntry_ready_id env since t lp st h.1
    have hready2 : readyList (syncEntry env since t lp st).fs
        (syncEntry env since t lp st).shaCache ts lp = true := by
      rw [h1.1, h1.2.1]
      exact h.2
    have h2 := syncList_ready_id env since ts lp (syncEntry env since t lp st)
      hready2
    exact ⟨h2.1.trans h1.1, h2.2.1.trans h1.2.1,
      h2.2.2.1.trans h1.2.2.1, h2.2.2.2.trans h1.2.2.2⟩

end

-- ## Assembly lemmas about one full cycle

theorem performSync_some_eq (env : Env) (cs : List RTree) (since : Option Nat)
    (now : Nat) (fs : FS) (c : Cache) :
    performSync env (some cs) since now fs c =
      { watermark := now
        ok := true
        fs := (pruneLocalFiles downloadDir
          (syncFolderRecursively env since cs downloadDir
            ⟨fs, c, [downloadDir], 0, 0⟩).fs
          (syncFolderRecursively env since cs downloadDir
            ⟨fs, c, [downloadDir], 0, 0⟩).remotePaths
          (syncFolderRecursively env since cs downloadDir
            ⟨fs, c, [downloadDir], 0, 0⟩).shaCache).fs
        shaCache := (pruneLocalFiles downloadDir
          (syncFolderRecursively env since cs downloadDir
            ⟨fs, c, [downloadDir], 0, 0⟩).fs
          (syncFolderRecursively env since cs downloadDir
            ⟨fs, c, [downloadDir], 0, 0⟩).remotePaths
          (syncFolderRecursively env since cs downloadDir
            ⟨fs, c, [downloadDir], 0, 0⟩).shaCache).shaCache
        remotePaths := (syncFolderRecursively env since cs downloadDir
          ⟨fs, c, [downloadDir], 0, 0⟩).remotePaths
        downloads := (syncFolderRecursively env since cs downloadDir
          ⟨fs, c, [downloadDir], 0, 0⟩).downloads
        failures := (syncFolderRecursively env since cs downloadDir
          ⟨fs, c, [downloadDir], 0, 0⟩).failures +
            (pruneLocalFiles downloadDir
              (syncFolderRecursively env since cs downloadDir
                ⟨fs, c, [downloadDir], 0, 0⟩).fs
              (syncFolderRecursively env since cs downloadDir
                ⟨fs, c, [downloadDir], 0, 0⟩).remotePaths
              (syncFolderRecursively env since cs downloadDir
                ⟨fs, c, [downloadDir], 0, 0⟩).shaCache).failures } := rfl

theorem performSync_failures_split (env : Env) (cs : List RTree)
    (since : Option Nat) (now : Nat) (fs : FS) (c : Cache)
    (hf : (performSync env (some cs) since now fs c).failures = 0) :
    (syncFolderRecursively env since cs downloadDir
        ⟨fs, c, [downloadDir], 0, 0⟩).failures = 0 ∧
      (pruneLocalFiles downloadDir
        (syncFolderRecursively env since cs downloadDir
          ⟨fs, c, [downloadDir], 0, 0⟩).fs
        (syncFolderRecursively env since cs downloadDir
          ⟨fs, c, [downloadDir], 0, 0⟩).remotePaths
        (syncFolderRecursively env since cs downloadDir
          ⟨fs, c, [downloadDir], 0, 0⟩).shaCache).failures = 0 := by
  rw [performSync_some_eq] at hf
  simp only at hf
  omega

theorem performSync_marks (env : Env) (cs : List RTree) (since : Option Nat)
    (now : Nat) (fs : FS) (c : Cache)
    (hf : (performSync env (some cs) since now fs c).failures = 0) :
    ∀ p, p ∈ (performSync env (some cs) since now fs c).remotePaths ↔
      (p = downloadDir ∨ p ∈ treePaths cs downloadDir) := by
  obtain ⟨hf1, _⟩ := performSync_failures_split env cs since now fs c hf
  intro p
  rw [performSync_some_eq]
  simp only
  constructor
  · intro hp
    by_cases hpt : p ∈ treePaths cs downloadDir
    · exact Or.inr hpt
    · left
      have := (syncList_frame env since cs downloadDir
        ⟨fs, c, [downloadDir], 0, 0⟩ p hpt).2.2.mp hp
      simpa using this
  · intro hp
    rcases hp with rfl | hp
    · exact (syncList_mono env since cs downloadDir
        ⟨fs, c, [downloadDir], 0, 0⟩).2.2.1 downloadDir (List.mem_cons_self _ _)
    · exact syncList_marks env since cs downloadDir
        ⟨fs, c, [downloadDir], 0, 0⟩ hf1 p hp

theorem performSync_paths (env : Env) (cs : List RTree) (since : Option Nat)
    (now : Nat) (fs : FS) (c : Cache)
    (hwf : fsWF downloadDir fs)
    (hf : (performSync env (some cs) since now fs c).failures = 0) :
    ∀ p, (lookupKV (performSync env (some cs) since now fs c).fs p).isSome
        = true ↔
      (p = downloadDir ∨ p ∈ treePaths cs downloadDir) := by
  obtain ⟨hf1, hf2⟩ := performSync_failures_split env cs since now fs c hf
  have hmarks := performSync_marks env cs since now fs c hf
  intro p
  constructor
  · intro hp
    rw [performSync_some_eq] at hp
    simp only at hp
    by_contra hcon
    push_neg at hcon
    have hpt : p ∉ treePaths cs downloadDir := hcon.2
    have hisSome1 : (lookupKV (syncFolderRecursively env since cs downloadDir
        ⟨fs, c, [downloadDir], 0, 0⟩).fs p).isSome = true := by
      unfold pruneLocalFiles at hp
      exact pruneSteps_noadd _ _ p hp
    have hfs0 : (lookupKV fs p).isSome = true := by
      rw [(syncList_frame env since cs downloadDir
        ⟨fs, c, [downloadDir], 0, 0⟩ p hpt).1] at hisSome1
      exact hisSome1
    have hub : underB downloadDir p = true := by
      rcases hwf.2 p ((lookupKV_isSome_mem fs p).mp hfs0) with h1 | h1
      · exact absurd h1 hcon.1
      · exact h1
    have hnrp : p ∉ (syncFolderRecursively env since cs downloadDir
        ⟨fs, c, [downloadDir], 0, 0⟩).remotePaths := by
      intro hmem
      have := (hmarks p).mp (by rw [performSync_some_eq]; simpa using hmem)
      tauto
    have hstale : p ∈ stalePaths downloadDir
        (syncFolderRecursively env since cs downloadDir
          ⟨fs, c, [downloadDir], 0, 0⟩).fs
        (syncFolderRecursively env since cs downloadDir
          ⟨fs, c, [downloadDir], 0, 0⟩).remotePaths := by
      rw [stalePaths_mem]
      exact ⟨(lookupKV_isSome_mem _ p).mp hisSome1, Or.inr hub, hnrp⟩
    have hnone := pruneSteps_success
      (sortDescLen (stalePaths downloadDir
        (syncFolderRecursively env since cs downloadDir
          ⟨fs, c, [downloadDir], 0, 0⟩).fs
        (syncFolderRecursively env since cs downloadDir
          ⟨fs, c, [downloadDir], 0, 0⟩).remotePaths))
      ⟨(syncFolderRecursively env since cs downloadDir
          ⟨fs, c, [downloadDir], 0, 0⟩).fs,
        (syncFolderRecursively env since cs downloadDir
          ⟨fs, c, [downloadDir], 0, 0⟩).shaCache, 0⟩
      hf2 p (mem_sortDescLen.mpr hstale)
    unfold pruneLocalFiles at hp
    rw [hnone] at hp
    exact absurd hp (by simp)
  · intro hp
    have hrp : p ∈ (syncFolderRecursively env since cs downloadDir
        ⟨fs, c, [downloadDir], 0, 0⟩).remotePaths := by
      have := (hmarks p).mpr hp
      rw [performSync_some_eq] at this
      simpa using this
    have hseed : ∀ q ∈ (⟨fs, c, [downloadDir], 0, 0⟩ : SyncState).remotePaths,
        (lookupKV (⟨fs, c, [downloadDir], 0, 0⟩ : SyncState).fs q).isSome
          = true := by
      intro q hq
      simp only [List.mem_singleton] at hq
      subst hq
      rw [hwf.1]
      rfl
    have hisSome1 := syncList_marked_exists env since cs downloadDir
      ⟨fs, c, [downloadDir], 0, 0⟩ hf1 hseed p hrp
    rw [performSync_some_eq]
    simp only
    rw [(pruneLocalFiles_frame downloadDir _ _ _ p hrp).1]
    exact hisSome1

theorem performSync_ready (env : Env) (cs : List RTree) (since : Option Nat)
    (now : Nat) (fs : FS) (c : Cache)
    (hf : (performSync env (some cs) since now fs c).failures = 0)
    (hnd : (treePaths cs downloadDir).Nodup) :
    readyList (performSync env (some cs) since now fs c).fs
      (performSync env (some cs) since now fs c).shaCache cs downloadDir
        = true := by
  obtain ⟨hf1, hf2⟩ := performSync_failures_split env cs since now fs c hf
  have hmarks := performSync_marks env cs since now fs c hf
  have hready1 := syncList_ready env since cs downloadDir
    ⟨fs, c, [downloadDir], 0, 0⟩ hf1 hnd
  rw [performSync_some_eq]
  simp only
  rw [readyList_congr (syncFolderRecursively env since cs downloadDir
      ⟨fs, c, [downloadDir], 0, 0⟩).fs _
    (syncFolderRecursively env since cs downloadDir
      ⟨fs, c, [downloadDir], 0, 0⟩).shaCache _ cs downloadDir ?_]
  · exact hready1
  · intro p hp
    have hrp : p ∈ (syncFolderRecursively env since cs downloadDir
        ⟨fs, c, [downloadDir], 0, 0⟩).remotePaths := by
      have := (hmarks p).mpr (Or.inr hp)
      rw [performSync_some_eq] at this
      simpa using this
    exact pruneLocalFiles_frame downloadDir _ _ _ p hrp

theorem performSync_invCF (env : Env) (cs : List RTree) (since : Option Nat)
    (now : Nat) (fs : FS) (c : Cache) (h : InvCF fs c) :
    InvCF (performSync env (some cs) since now fs c).fs
      (performSync env (some cs) since now fs c).shaCache := by
  rw [performSync_some_eq]
  simp only
  unfold pruneLocalFiles
  exact pruneSteps_invCF _ _
    (syncList_invCF env since cs downloadDir ⟨fs, c, [downloadDir], 0, 0⟩ h)

-- ## Idempotence of a second cycle over a ready state

theorem performSync_idem (env : Env) (cs : List RTree) (s2 : Option Nat)
    (t2 : Nat) (fs1 : FS) (c1 : Cache)
    (hready : readyList fs1 c1 cs downloadDir = true)
    (hpaths : ∀ p, (lookupKV fs1 p).isSome = true →
      (p = downloadDir ∨ p ∈ treePaths cs downloadDir)) :
    (performSync env (some cs) s2 t2 fs1 c1).downloads = 0 ∧
      (performSync env (some cs) s2 t2 fs1 c1).fs = fs1 ∧
      (performSync env (some cs) s2 t2 fs1 c1).shaCache = c1 ∧
      (performSync env (some cs) s2 t2 fs1 c1).failures = 0 := by
  have hid := syncList_ready_id env s2 cs downloadDir
    ⟨fs1, c1, [downloadDir], 0, 0⟩ hready
  have hmarks2 : ∀ p, (p = downloadDir ∨ p ∈ treePaths cs downloadDir) →
      p ∈ (syncFolderRecursively env s2 cs downloadDir
        ⟨fs1, c1, [downloadDir], 0, 0⟩).remotePaths := by
    intro p hp
    rcases hp with rfl | hp
    · exact (syncList_mono env s2 cs downloadDir
        ⟨fs1, c1, [downloadDir], 0, 0⟩).2.2.1 downloadDir
        (List.mem_cons_self _ _)
    · exact syncList_marks env s2 cs downloadDir
        ⟨fs1, c1, [downloadDir], 0, 0⟩ hid.2.2.2 p hp
  have hstale : stalePaths downloadDir
      (syncFolderRecursively env s2 cs downloadDir
        ⟨fs1, c1, [downloadDir], 0, 0⟩).fs
      (syncFolderRecursively env s2 cs downloadDir
        ⟨fs1, c1, [downloadDir], 0, 0⟩).remotePaths = [] := by
    apply List.filter_eq_nil_iff.mpr
    intro a ha
    simp only [decide_eq_true_eq, Decidable.not_not]
    have hmem : a ∈ (syncFolderRecursively env s2 cs downloadDir
        ⟨fs1, c1, [downloadDir], 0, 0⟩).fs.map Prod.fst := by
      unfold walkPaths at ha
      exact (List.mem_filter.mp ha).1
    have hsome : (lookupKV fs1 a).isSome = true := by
      have := (lookupKV_isSome_mem _ a).mpr hmem
      rw [hid.1] at this
      exact this
    exact hmarks2 a (hpaths a hsome)
  have hprune : pruneLocalFiles downloadDir
      (syncFolderRecursively env s2 cs downloadDir
        ⟨fs1, c1, [downloadDir], 0, 0⟩).fs
      (syncFolderRecursively env s2 cs downloadDir
        ⟨fs1, c1, [downloadDir], 0, 0⟩).remotePaths
      (syncFolderRecursively env s2 cs downloadDir
        ⟨fs1, c1, [downloadDir], 0, 0⟩).shaCache =
      ⟨(syncFolderRecursively env s2 cs downloadDir
          ⟨fs1, c1, [downloadDir], 0, 0⟩).fs,
        (syncFolderRecursively env s2 cs downloadDir
          ⟨fs1, c1, [downloadDir], 0, 0⟩).shaCache, 0⟩ := by
    unfold pruneLocalFiles
    rw [hstale]
    rfl
  rw [performSync_some_eq]
  simp only [hprune]
  exact ⟨hid.2.2.1, hid.1, hid.2.1, by rw [hid.2.2.2]⟩

-- ## Claims

/-- Claim C1: after a fully successful sync cycle (no per-item failures
anywhere, expressed as `failures = 0`), the set of paths existing under
the local download root equals exactly the set of local paths of the
non-workspace files and folders reachable from the remote root at
listing time (the root itself included).  `fsWF` says the root existed
as a directory with everything below it at cycle entry; `namesOk`
confines the statement to ordinary names, where the path model matches
`filepath.Join`. -/
theorem claim_C1_mirror_exact (env : Env) (cs : List RTree)
    (since : Option Nat) (now : Nat) (fs : FS) (c : Cache)
    (hwf : fsWF downloadDir fs) (_hn : namesOk cs = true)
    (hf : (performSync env (some cs) since now fs c).failures = 0) :
    ∀ p, (lookupKV (performSync env (some cs) since now fs c).fs p).isSome
        = true ↔
      (p = downloadDir ∨ p ∈ treePaths cs downloadDir) :=
  fun p => performSync_paths env cs since now fs c hwf hf p

theorem claim_C1_witness :
    (lookupKV (performSync wEnv (some wTree) none 7 wFS0 []).fs
        (joinPath downloadDir "file1.txt")).isSome = true ↔
      (joinPath downloadDir "file1.txt" = downloadDir ∨
        joinPath downloadDir "file1.txt" ∈ treePaths wTree downloadDir) :=
  claim_C1_mirror_exact wEnv wTree none 7 wFS0 []
    ⟨by decide, by decide⟩ (by decide)
    (by decide) (joinPath downloadDir "file1.txt")

/-- Claim C2: for every regular file handled by `downloadFile`, a cache
entry equal to the remote checksum means no download and no state
change, under the cross-cycle invariant that a cached path has a local
file (so `os.Stat` succeeds); a differing or missing cache entry means
exactly one download, and on success the cache entry becomes the new
remote checksum. -/
theorem claim_C2_checksum_gate (env : Env) (f : DriveFile) (dir : String)
    (fs : FS) (c : Cache)
    (hinv : ∀ s, lookupKV c (joinPath dir f.name) = some s →
      (lookupKV fs (joinPath dir f.name)).isSome = true) :
    (lookupKV c (joinPath dir f.name) = some f.sha256Checksum →
      (downloadFile env f dir fs c).fs = fs ∧
        (downloadFile env f dir fs c).shaCache = c ∧
        (downloadFile env f dir fs c).didDownload = false) ∧
      (lookupKV c (joinPath dir f.name) ≠ some f.sha256Checksum →
        (downloadFile env f dir fs c).didDownload = true ∧
          ((downloadFile env f dir fs c).failed = false →
            lookupKV (downloadFile env f dir fs c).shaCache
              (joinPath dir f.name) = some f.sha256Checksum)) := by
  constructor
  · intro hc
    rcases hfs : lookupKV fs (joinPath dir f.name) with _ | e
    · have := hinv f.sha256Checksum hc
      rw [hfs] at this
      exact absurd this (by simp)
    · rw [downloadFile_hit env f dir fs c e hfs hc]
      exact ⟨rfl, rfl, rfl⟩
  · intro hc
    rw [downloadFile_miss env f dir fs c (fun e _ hcc => hc hcc)]
    rcases he : env f.id with _ | _ | pc | co
    · exact ⟨rfl, fun hcon => absurd hcon (by simp)⟩
    · exact ⟨rfl, fun hcon => absurd hcon (by simp)⟩
    · rcases hfs : lookupKV fs (joinPath dir f.name) with _ | e <;>
        (try rcases e with c0 | _)
      · exact ⟨rfl, fun hcon => absurd hcon (by simp)⟩
      · exact ⟨rfl, fun hcon => absurd hcon (by simp)⟩
      · exact ⟨rfl, fun hcon => absurd hcon (by simp)⟩
    · rcases hfs : lookupKV fs (joinPath dir f.name) with _ | e <;>
        (try rcases e with c0 | _)
      · exact ⟨rfl, fun _ => by rw [lookupKV_setKV, if_pos rfl]⟩
      · exact ⟨rfl, fun _ => by rw [lookupKV_setKV, if_pos rfl]⟩
      · exact ⟨rfl, fun hcon => absurd hcon (by simp)⟩

theorem claim_C2_witness :
    (downloadFile wEnv wFile1 downloadDir wFS0 []).didDownload = true ∧
      ((downloadFile wEnv wFile1 downloadDir wFS0 []).failed = false →
        lookupKV (downloadFile wEnv wFile1 downloadDir wFS0 []).shaCache
          (joinPath downloadDir wFile1.name) = some wFile1.sha256Checksum) :=
  (claim_C2_checksum_gate wEnv wFile1 downloadDir wFS0 []
    (by intro s h; simp [lookupKV] at h)).2 (by decide)

/-- Claim C3: sorting the collected stale paths by descending string
length puts every collected path before each of its collected ancestors
(an ancestor is strictly shorter), so when pruning reaches a directory,
all collected paths below it have already been deleted. -/
theorem claim_C3_prune_order (localRoot : String) (fs : FS)
    (remotePaths : List String) :
    List.Pairwise (fun p q => ¬ under p q)
      (sortDescLen (stalePaths localRoot fs remotePaths)) := by
  refine List.Pairwise.imp ?_
    (sortDescLen_pairwise (stalePaths localRoot fs remotePaths))
  intro a b hab hund
  exact Nat.not_le.mpr (under_length hund) hab

/-- Claim C4 counterexample: a failed write (`io.Copy` error) leaves the
checksum-cache entry for the file's path in place — the claim predicts
it is removed, but `downloadFile` has no `delete(shaCache, localPath)`
on any failure branch. -/
theorem claim_C4_counterexample :
    (downloadFile cexEnvWF cexFileA downloadDir cexFS cexCache).failed
        = true ∧
      (downloadFile cexEnvWF cexFileA downloadDir cexFS cexCache).didDownload
        = true ∧
      ¬ lookupKV (downloadFile cexEnvWF cexFileA downloadDir cexFS
          cexCache).shaCache (joinPath downloadDir "a.txt") = none ∧
      lookupKV (downloadFile cexEnvWF cexFileA downloadDir cexFS
        cexCache).shaCache (joinPath downloadDir "a.txt") = some "oldsha" := by
  decide

/-- Claim C4 amended: when the write of a downloaded file fails, the
item is counted as a logged failure and the cycle continues, but the
checksum cache is left entirely unchanged (the stale entry is NOT
removed). -/
theorem claim_C4_amended (env : Env) (f : DriveFile) (dir : String)
    (fs : FS) (c : Cache) (pc : String)
    (he : env f.id = .writeError pc)
    (hne : lookupKV c (joinPath dir f.name) ≠ some f.sha256Checksum) :
    (downloadFile env f dir fs c).shaCache = c ∧
      (downloadFile env f dir fs c).failed = true ∧
      (downloadFile env f dir fs c).didDownload = true := by
  rw [downloadFile_miss env f dir fs c (fun e _ hcc => hne hcc), he]
  rcases hfs : lookupKV fs (joinPath dir f.name) with _ | e <;>
    (try rcases e with c0 | _)
  · exact ⟨rfl, rfl, rfl⟩
  · exact ⟨rfl, rfl, rfl⟩
  · exact ⟨rfl, rfl, rfl⟩

theorem claim_C4_witness :
    (downloadFile cexEnvWF cexFileA downloadDir cexFS cexCache).shaCache
        = cexCache ∧
      (downloadFile cexEnvWF cexFileA downloadDir cexFS cexCache).failed
        = true ∧
      (downloadFile cexEnvWF cexFileA downloadDir cexFS
        cexCache).didDownload = true :=
  claim_C4_amended cexEnvWF cexFileA downloadDir cexFS cexCache "partial"
    (by decide) (by decide)

/-- Claim C5: when root-folder resolution fails, the cycle aborts with
an error without touching the local tree or the checksum cache, and the
sync loop keeps the previous watermark for the next attempt. -/
theorem claim_C5_resolution_failure (env : Env) (since : Option Nat)
    (now : Nat) (fs : FS) (c : Cache) (last : Option Nat) :
    (performSync env none since now fs c).ok = false ∧
      (performSync env none since now fs c).fs = fs ∧
      (performSync env none since now fs c).shaCache = c ∧
      loopStep (performSync env none since now fs c) last = last := by
  refine ⟨rfl, rfl, rfl, ?_⟩
  unfold loopStep performSync
  simp

/-- Claim C6: a cycle whose folder resolution succeeds returns `ok` and
reports as watermark exactly the `currentTime` captured at entry, for
every environment — in particular also when individual downloads failed
during the cycle. -/
theorem claim_C6_watermark (env : Env) (cs : List RTree)
    (since : Option Nat) (now : Nat) (fs : FS) (c : Cache) :
    (performSync env (some cs) since now fs c).ok = true ∧
      (performSync env (some cs) since now fs c).watermark = now :=
  ⟨rfl, rfl⟩

/-- Claim C7 counterexample: the first cycle's behaviour is bit-for-bit
identical with and without the "last N seconds" bound — the recursive
listing query is `'<id>' in parents and trashed = false` and never
applies a time filter — and the listed files are downloaded either
way. -/
theorem claim_C7_counterexample :
    performSync wEnv (some wTree) (some 1000000) 5 wFS0 [] =
        performSync wEnv (some wTree) none 5 wFS0 [] ∧
      (performSync wEnv (some wTree) (some 1000000) 5 wFS0 []).downloads
        = 2 := by
  constructor
  · decide
  · decide

/-- Claim C7 amended: `startSyncLoop` computes the initial watermark as
`now - N` when `N > 0`, each successful cycle's watermark becomes the
prior cycle's start time, but no cycle's behaviour depends on the
`since` value at all — the listing is always unfiltered. -/
theorem claim_C7_amended :
    (∀ secondsAgo now : Nat,
        initialLastSyncTime (secondsAgo + 1) now =
          some (now - (secondsAgo + 1))) ∧
      (∀ (env : Env) (root : Option (List RTree)) (s1 s2 : Option Nat)
          (now : Nat) (fs : FS) (c : Cache),
        performSync env root s1 now fs c = performSync env root s2 now fs c) ∧
      (∀ (w : Nat) (fs : FS) (c : Cache) (rp : List String) (d fl : Nat)
          (last : Option Nat),
        loopStep ⟨w, true, fs, c, rp, d, fl⟩ last = some w) := by
  refine ⟨?_, ?_, ?_⟩
  · intro s n
    unfold initialLastSyncTime
    rw [if_pos (Nat.succ_pos s)]
  · intro env root s1 s2 now fs c
    cases root with
    | none => rfl
    | some cs =>
      rw [performSync_some_eq, performSync_some_eq,
        syncList_since env s1 s2 cs downloadDir
          ⟨fs, c, [downloadDir], 0, 0⟩]
  · intro w fs c rp d fl last
    unfold loopStep
    simp

/-- Claim C8 counterexample: with two same-named sibling files of
different checksums (which Drive permits), the first cycle succeeds
with no failures, yet a second cycle against the unchanged remote
performs two downloads instead of zero — the shared local path
ping-pongs between the two checksums. -/
theorem claim_C8_counterexample :
    (performSync dupEnv (some dupTree) none 0 wFS0 []).failures = 0 ∧
      (performSync dupEnv (some dupTree) none 1
        (performSync dupEnv (some dupTree) none 0 wFS0 []).fs
        (performSync dupEnv (some dupTree) none 0 wFS0 []).shaCache).downloads
          = 2 := by
  constructor
  · decide
  · decide

/-- Claim C8 amended: provided the tree's local paths are pairwise
distinct (no duplicate sibling names) and the first cycle was fully
successful, a second cycle over the unchanged remote performs zero
downloads and leaves the local tree, the checksum cache and the failure
count unchanged. -/
theorem claim_C8_amended (env : Env) (cs : List RTree) (s1 s2 : Option Nat)
    (t1 t2 : Nat) (fs : FS) (c : Cache)
    (hwf : fsWF downloadDir fs) (_hn : namesOk cs = true)
    (hnd : (treePaths cs downloadDir).Nodup)
    (hf : (performSync env (some cs) s1 t1 fs c).failures = 0) :
    (performSync env (some cs) s2 t2
        (performSync env (some cs) s1 t1 fs c).fs
        (performSync env (some cs) s1 t1 fs c).shaCache).downloads = 0 ∧
      (performSync env (some cs) s2 t2
          (performSync env (some cs) s1 t1 fs c).fs
          (performSync env (some cs) s1 t1 fs c).shaCache).fs =
        (performSync env (some cs) s1 t1 fs c).fs ∧
      (performSync env (some cs) s2 t2
          (performSync env (some cs) s1 t1 fs c).fs
          (performSync env (some cs) s1 t1 fs c).shaCache).shaCache =
        (performSync env (some cs) s1 t1 fs c).shaCache ∧
      (performSync env (some cs) s2 t2
          (performSync env (some cs) s1 t1 fs c).fs
          (performSync env (some cs) s1 t1 fs c).shaCache).failures = 0 :=
  performSync_idem env cs s2 t2
    (performSync env (some cs) s1 t1 fs c).fs
    (performSync env (some cs) s1 t1 fs c).shaCache
    (performSync_ready env cs s1 t1 fs c hf hnd)
    (fun p hp => (performSync_paths env cs s1 t1 fs c hwf hf p).mp hp)

theorem claim_C8_witness :
    (performSync wEnv (some wTree) (some 100) 200
        (performSync wEnv (some wTree) none 100 wFS0 []).fs
        (performSync wEnv (some wTree) none 100 wFS0 []).shaCache).downloads
      = 0 :=
  (claim_C8_amended wEnv wTree none (some 100) 100 200 wFS0 []
    ⟨by decide, by decide⟩ (by decide) (by decide) (by decide)).1

/-- Claim C9: a listed entry of the Workspace/opaque kind is skipped
entirely — the sync state (local tree, cache, remote-path set, download
and failure counters) is unchanged — and any local path that the walk
reaches but that is absent from the remote-path set is deleted by a
fully successful prune pass. -/
theorem claim_C9_workspace_skip (env : Env) (since : Option Nat)
    (f : DriveFile) (cs : List RTree) (lp : String) (st : SyncState)
    (root p : String) (fs : FS) (rp : List String) (c : Cache)
    (hw : gappsMime.data.isPrefixOf f.mimeType.data = true)
    (hnf : f.mimeType ≠ folderMime) :
    syncEntry env since (.node f cs) lp st = st ∧
      ((pruneLocalFiles root fs rp c).failures = 0 →
        (lookupKV fs p).isSome = true → p ∉ rp → underB root p = true →
        lookupKV (pruneLocalFiles root fs rp c).fs p = none) := by
  constructor
  · exact syncEntry_workspace env since f cs lp st hnf hw
  · intro hpf hsome hnrp hub
    unfold pruneLocalFiles at hpf ⊢
    refine pruneSteps_success _ _ hpf p ?_
    exact mem_sortDescLen.mpr ((stalePaths_mem root fs rp p).mpr
      ⟨(lookupKV_isSome_mem fs p).mp hsome, Or.inr hub, hnrp⟩)

theorem claim_C9_witness :
    syncEntry wEnv none (.node wDoc []) downloadDir
        ⟨wFS0, [], [downloadDir], 0, 0⟩ = ⟨wFS0, [], [downloadDir], 0, 0⟩ ∧
      lookupKV (pruneLocalFiles downloadDir cexFS9 [downloadDir] []).fs
        (joinPath downloadDir "stale.pdf") = none := by
  have h := claim_C9_workspace_skip wEnv none wDoc [] downloadDir
    ⟨wFS0, [], [downloadDir], 0, 0⟩ downloadDir
    (joinPath downloadDir "stale.pdf") cexFS9 [downloadDir] []
    (by decide) (by decide)
  exact ⟨h.1, h.2 (by decide) (by decide) (by decide) (by decide)⟩

/-- Claim C10: the remote-path set built by the mirror phase contains
the download root, every other member arises by joining a member with a
child name (so its parent is in the set), the set is closed under
taking ancestors that lie at or below the root, and consequently no
member's ancestor is ever collected for pruning.  `namesOk` confines
the statement to ordinary names. -/
theorem claim_C10_closure (env : Env) (cs : List RTree) (since : Option Nat)
    (fs anyFs : FS) (c : Cache) (hn : namesOk cs = true) :
    downloadDir ∈ (syncFolderRecursively env since cs downloadDir
        ⟨fs, c, [downloadDir], 0, 0⟩).remotePaths ∧
      pathsClosed (syncFolderRecursively env since cs downloadDir
        ⟨fs, c, [downloadDir], 0, 0⟩).remotePaths ∧
      ancClosed (syncFolderRecursively env since cs downloadDir
        ⟨fs, c, [downloadDir], 0, 0⟩).remotePaths ∧
      (∀ p q, q ∈ (syncFolderRecursively env since cs downloadDir
          ⟨fs, c, [downloadDir], 0, 0⟩).remotePaths → under p q →
        p ∉ stalePaths downloadDir anyFs
          (syncFolderRecursively env since cs downloadDir
            ⟨fs, c, [downloadDir], 0, 0⟩).remotePaths) := by
  have hcl0 : pathsClosed [downloadDir] := by
    intro q hq
    rw [List.mem_singleton] at hq
    exact Or.inl hq
  have hanc0 : ancClosed [downloadDir] := by
    intro q hq x hxq hroot
    rw [List.mem_singleton] at hq
    subst hq
    exfalso
    rcases hroot with rfl | hroot
    · exact under_irrefl _ hxq
    · have h1 := under_length hxq
      have h2 := under_length hroot
      omega
  have h1 := syncList_closed env since cs downloadDir
    ⟨fs, c, [downloadDir], 0, 0⟩ (List.mem_cons_self _ _) hcl0
  have h2 := syncList_anc env since cs downloadDir
    ⟨fs, c, [downloadDir], 0, 0⟩ hn (List.mem_cons_self _ _) hanc0
  refine ⟨h1.1, h1.2, h2.2, ?_⟩
  intro p q hq hpq hst
  rw [stalePaths_mem] at hst
  have hp : p ∈ (syncFolderRecursively env since cs downloadDir
      ⟨fs, c, [downloadDir], 0, 0⟩).remotePaths := by
    refine h2.2 q hq p hpq ?_
    rcases hst.2.1 with h3 | h3
    · exact Or.inl h3
    · exact Or.inr ((underB_iff downloadDir p).mp h3)
  exact hst.2.2 hp

theorem claim_C10_witness :
    downloadDir ∈ (syncFolderRecursively wEnv none wTree downloadDir
      ⟨wFS0, [], [downloadDir], 0, 0⟩).remotePaths :=
  (claim_C10_closure wEnv wTree none wFS0 wFS0 [] (by decide)).1
